import Mathlib

/-!
A verification development for the blog backend's post store and comment-tree
subsystem.  The Python sources (`app/core/utils.py`, `app/core/deps.py`,
`app/crud/post.py`, `app/crud/comment.py`, `app/routes/posts.py`,
`app/routes/comments.py`, `app/routes/users.py`) are embedded shallowly:

* MongoDB collections become Lean lists of records; `find` is `List.filter`,
  `find_one` is `List.find?`, `sort` is `List.insertionSort`, `skip`/`limit`
  are `List.drop`/`List.take`, `delete_one` is `List.eraseP`,
  `count_documents` is `List.countP`.
* Python strings are sequences of code points, mirrored by `String.data`
  (a `List Char`); `datetime` values become `Nat` timestamps.
* Fallible code is modelled in `Except`; a Python `try/except` wrapper turns
  the error case into the value the handler returns.  Where an exception can
  escape after database writes have happened, the error value carries the
  mutated collection.
* The unbounded recursion of `delete_comment_replies` / `get_comment_replies`
  is modelled with an explicit fuel parameter; the wrappers supply
  `length + 1` fuel, which suffices on every store satisfying the creation
  invariant (parents exist and are acyclic), exactly the stores on which the
  Python recursion terminates.
-/

namespace BlogAPI

/-! ### Characters and small string helpers -/

/-- Decimal digit or lowercase hex letter, by code point. -/
def isLowerHex (c : Char) : Bool :=
  (48 ≤ c.toNat && c.toNat ≤ 57) || (97 ≤ c.toNat && c.toNat ≤ 102)

/-- Any hex digit (either case), by code point. -/
def isHexChar (c : Char) : Bool :=
  (48 ≤ c.toNat && c.toNat ≤ 57) || (97 ≤ c.toNat && c.toNat ≤ 102) ||
    (65 ≤ c.toNat && c.toNat ≤ 70)

/-- Lowercase an uppercase hex letter, leave anything else unchanged. -/
def hexLower (c : Char) : Char :=
  if 65 ≤ c.toNat && c.toNat ≤ 70 then Char.ofNat (c.toNat + 32) else c

/-- Model of `bson.ObjectId(s)` applied to a string: it succeeds exactly on
24-character hex strings (case-insensitive) and the resulting id prints in
lowercase; any other string raises `InvalidId`, modelled as `none`. -/
def objectIdNorm (s : String) : Option String :=
  if s.data.length = 24 && s.data.all isHexChar then some ⟨s.data.map hexLower⟩
  else none

/-- A string that is already a canonical (lowercase) object id, the form the
database assigns to `_id` on insert. -/
def isCanonicalOid (s : String) : Bool :=
  s.data.length = 24 && s.data.all isLowerHex

/-! ### Slug validation (`app/core/utils.py`) -/

/-- A character allowed inside a slug chunk: `[a-z0-9]`, by code point. -/
def isSlugChar (c : Char) : Bool :=
  (48 ≤ c.toNat && c.toNat ≤ 57) || (97 ≤ c.toNat && c.toNat ≤ 122)

/-- Split a character list at every `'-'`, keeping empty chunks; returns the
first chunk and the remaining ones. -/
def splitHyphenCore : List Char → List Char × List (List Char)
  | [] => ([], [])
  | c :: rest =>
    let (g, gs) := splitHyphenCore rest
    if c = '-' then ([], g :: gs) else (c :: g, gs)

/-- All hyphen-separated chunks of a character list (at least one). -/
def splitHyphen (l : List Char) : List (List Char) :=
  let (g, gs) := splitHyphenCore l
  g :: gs

/-- Full-string match of the regex `^[a-z0-9]+(?:-[a-z0-9]+)*$`: every
hyphen-separated chunk is nonempty and consists of `[a-z0-9]` characters. -/
def slugPatternCore (l : List Char) : Bool :=
  (splitHyphen l).all fun g => !g.isEmpty && g.all isSlugChar

/-- Model of `is_valid_slug` from `app/core/utils.py`, which evaluates
`re.match(r"^[a-z0-9]+(?:-[a-z0-9]+)*$", slug)`.  In Python, a `$` anchor also
matches just before a single newline at the very end of the string, so the
check additionally accepts a valid slug followed by one trailing newline. -/
def is_valid_slug (slug : String) : Bool :=
  slugPatternCore slug.data ||
    (match slug.data.getLast? with
     | some c => c = '\n' && slugPatternCore slug.data.dropLast
     | none => false)

/-! ### Summary derivation (`app/core/utils.py`) -/

/-- Characters stripped by Python's `str.rstrip()` (the ASCII whitespace set;
the claims never involve non-ASCII whitespace). -/
def pySpaceChar (c : Char) : Bool :=
  c = ' ' || c = '\t' || c = '\n' || c = '\r' || c.toNat = 11 || c.toNat = 12

/-- Remove trailing characters satisfying `pySpaceChar`, as `str.rstrip()`. -/
def rstripChars (l : List Char) : List Char :=
  (l.reverse.dropWhile pySpaceChar).reverse

/-- Index of the last character satisfying `p`, as Python's `str.rfind`
(`none` standing for Python's `-1`). -/
def rfindP : List Char → (Char → Bool) → Option Nat
  | [], _ => none
  | c :: cs, p =>
    match rfindP cs p with
    | some j => some (j + 1)
    | none => if p c then some 0 else none

/-- Model of `get_summary_from_content` from `app/core/utils.py`.  Content of
at most `maxLength` code points is returned unchanged; otherwise the first
`maxLength` code points are kept, cut at the last `' '` (specifically the
space character, as `str.rfind(' ')` does) when one exists, right-stripped,
and suffixed with `"..."`. -/
def get_summary_from_content (content : String) (maxLength : Nat := 200) : String :=
  if content.data.length ≤ maxLength then content
  else
    let summary := content.data.take maxLength
    let cut :=
      match rfindP summary (fun c => c == ' ') with
      | some lastSpace => summary.take lastSpace
      | none => summary
    ⟨rstripChars cut ++ "...".data⟩

/-! ### Data model

Stored documents of the three MongoDB collections, with `_id` already in its
canonical string form and timestamps as naturals. -/

structure StoredPost where
  id : String
  title : String
  content : String
  summary : String
  tags : List String
  slug : String
  status : String
  author_id : String
  created_at : Nat
  updated_at : Nat
deriving DecidableEq

structure StoredComment where
  id : String
  post_id : String
  parent_id : Option String
  content : String
  author_id : String
  created_at : Nat
  updated_at : Nat
deriving DecidableEq

structure StoredUser where
  id : String
  username : String
  full_name : Option String
  bio : Option String
  password : String
deriving DecidableEq

structure DB where
  posts : List StoredPost
  comments : List StoredComment
  users : List StoredUser
deriving DecidableEq

/-- The public author projection embedded by the getters (id, username,
full_name, bio; never credentials). -/
structure AuthorPub where
  id : String
  username : String
  full_name : Option String
  bio : Option String
deriving DecidableEq

/-- A denormalized comment as returned by `get_comment_by_id`: when the author
user is found, `author` is set and the raw `author_id` is removed; otherwise
the raw `author_id` stays and no `author` field is present. -/
structure CommentOut where
  id : String
  post_id : String
  parent_id : Option String
  content : String
  author : Option AuthorPub
  author_id : Option String
  created_at : Nat
  updated_at : Nat
deriving DecidableEq

/-- A denormalized post as returned by `get_post_by_id`. -/
structure PostOut where
  id : String
  title : String
  content : String
  summary : String
  tags : List String
  slug : String
  status : String
  author : Option AuthorPub
  author_id : Option String
  comments_count : Nat
  created_at : Nat
  updated_at : Nat
deriving DecidableEq

/-- The only exception the getter bodies can raise: `bson.InvalidId` from an
`ObjectId(...)` call on a malformed string. -/
inductive PyErr where
  | invalidObjectId
deriving DecidableEq

/-! ### Denormalizing getters (`app/crud/comment.py`, `app/crud/post.py`) -/

/-- The author-embedding block shared by `get_comment_by_id` and
`get_post_by_id`: parse the stored `author_id` (which can raise) and look the
user up, projecting to public fields. -/
def lookupAuthor (db : DB) (author_id : String) : Except PyErr (Option AuthorPub) :=
  match objectIdNorm author_id with
  | none => .error .invalidObjectId
  | some aoid =>
    .ok ((db.users.find? (fun u => u.id == aoid)).map
      (fun u => ⟨u.id, u.username, u.full_name, u.bio⟩))

/-- Body of `get_comment_by_id` (the code inside its `try`). -/
def get_comment_by_id_body (db : DB) (comment_id : String) :
    Except PyErr (Option CommentOut) :=
  match objectIdNorm comment_id with
  | none => .error .invalidObjectId
  | some oid =>
    match db.comments.find? (fun c => c.id == oid) with
    | none => .ok none
    | some c =>
      match lookupAuthor db c.author_id with
      | .error e => .error e
      | .ok authorOpt =>
        .ok (some
          { id := c.id, post_id := c.post_id, parent_id := c.parent_id,
            content := c.content, author := authorOpt,
            author_id := if authorOpt.isSome then none else some c.author_id,
            created_at := c.created_at, updated_at := c.updated_at })

/-- Model of `get_comment_by_id` from `app/crud/comment.py`: the whole body is
wrapped in `try: ... except Exception: return None`. -/
def get_comment_by_id (db : DB) (comment_id : String) : Option CommentOut :=
  match get_comment_by_id_body db comment_id with
  | .error _ => none
  | .ok v => v

/-- Body of `get_post_by_id` (the code inside its `try`). -/
def get_post_by_id_body (db : DB) (post_id : String) :
    Except PyErr (Option PostOut) :=
  match objectIdNorm post_id with
  | none => .error .invalidObjectId
  | some oid =>
    match db.posts.find? (fun p => p.id == oid) with
    | none => .ok none
    | some p =>
      match lookupAuthor db p.author_id with
      | .error e => .error e
      | .ok authorOpt =>
        .ok (some
          { id := p.id, title := p.title, content := p.content,
            summary := p.summary, tags := p.tags, slug := p.slug,
            status := p.status, author := authorOpt,
            author_id := if authorOpt.isSome then none else some p.author_id,
            comments_count := db.comments.countP (fun c => c.post_id == p.id),
            created_at := p.created_at, updated_at := p.updated_at })

/-- Model of `get_post_by_id` from `app/crud/post.py`, with the same
`try/except` wrapper as the comment getter. -/
def get_post_by_id (db : DB) (post_id : String) : Option PostOut :=
  match get_post_by_id_body db post_id with
  | .error _ => none
  | .ok v => v

/-! ### Post store mutations (`app/crud/post.py`) -/

/-- Error taxonomy of the post mutations: `invalidSlug` and `duplicateSlug`
are the two HTTP 400 responses, `forbidden` the HTTP 403, and `invalidId` the
uncaught `bson.InvalidId` from `ObjectId(post_id)` in `update_post`. -/
inductive PostErr where
  | invalidSlug
  | duplicateSlug
  | forbidden
  | invalidId
deriving DecidableEq

/-- Python truthiness of an optional string (`not post_dict.get(k)`):
missing, `None`, and `""` are all falsy. -/
def falsyStr : Option String → Bool
  | none => true
  | some s => s.isEmpty

/-- The payload of `PostCreate` after `model_dump()`. -/
structure PostCreateData where
  title : String
  content : String
  summary : Option String
  tags : List String
  slug : Option String
  status : String
deriving DecidableEq

/-- The payload of `PostUpdate` after `model_dump(exclude_unset=True)` and the
`is not None` filter; a field a client sent as `null` is dropped by that
filter, so `none` uniformly means "not part of the update". -/
structure PostUpdateData where
  title : Option String
  content : Option String
  summary : Option String
  tags : Option (List String)
  slug : Option String
  status : Option String
deriving DecidableEq

/-- Replace the first element satisfying `p` (MongoDB `update_one`). -/
def setFirst {α : Type} (p : α → Bool) (f : α → α) : List α → List α
  | [] => []
  | x :: xs => if p x then f x :: xs else x :: setFirst p f xs

/-- Python's `update_data.get("title") or post.get("title")`: the patch title
when it is present and truthy, the stored title otherwise. -/
def pyOrTitle (patchTitle : Option String) (fallback : String) : String :=
  match patchTitle with
  | some t => if t.isEmpty then fallback else t
  | none => fallback

/-- Model of `create_post` from `app/crud/post.py`, returning the updated
posts collection (the handler's denormalized return value is
`get_post_by_id` on the new id and is modelled separately).  `slugify` is the
external slug utility (`generate_slug` simply forwards to it), `newId` the
storage-assigned id. -/
def create_post (slugify : String → String) (posts : List StoredPost)
    (post_data : PostCreateData) (author_id : String) (now : Nat) (newId : String) :
    Except PostErr (List StoredPost) :=
  let slugR : Except PostErr String :=
    if falsyStr post_data.slug then .ok (slugify post_data.title)
    else if is_valid_slug (post_data.slug.getD "") then .ok (post_data.slug.getD "")
    else .error .invalidSlug
  match slugR with
  | .error e => .error e
  | .ok slug =>
    if posts.any (fun p => p.slug == slug) then .error .duplicateSlug
    else
      let summary :=
        if falsyStr post_data.summary then get_summary_from_content post_data.content
        else post_data.summary.getD ""
      .ok (posts ++
        [{ id := newId, title := post_data.title, content := post_data.content,
           summary := summary, tags := post_data.tags, slug := slug,
           status := post_data.status, author_id := author_id,
           created_at := now, updated_at := now }])

/-- Model of `update_post` from `app/crud/post.py`, returning the updated
posts collection when the post exists (`.ok none` is the function's `None`
for a missing post). -/
def update_post (slugify : String → String) (posts : List StoredPost)
    (post_id : String) (patch : PostUpdateData) (author_id : Option String)
    (now : Nat) : Except PostErr (Option (List StoredPost)) :=
  match objectIdNorm post_id with
  | none => .error .invalidId
  | some oid =>
    match posts.find? (fun p => p.id == oid) with
    | none => .ok none
    | some post =>
      if author_id.any (fun a => post.author_id != a) then .error .forbidden
      else
        let slugR : Except PostErr (Option String) :=
          match patch.slug with
          | none => .ok none
          | some s =>
            if s.isEmpty then .ok (some (slugify (pyOrTitle patch.title post.title)))
            else if is_valid_slug s then .ok (some s)
            else .error .invalidSlug
        match slugR with
        | .error e => .error e
        | .ok slugUpd =>
          if (match slugUpd with
              | some s' => s' != post.slug && posts.any (fun q => q.slug == s')
              | none => false) then .error .duplicateSlug
          else
            let p1 : StoredPost :=
              { post with
                title := patch.title.getD post.title,
                content := patch.content.getD post.content,
                summary :=
                  (match patch.summary with
                   | some sm => sm
                   | none =>
                     match patch.content with
                     | some c => get_summary_from_content c
                     | none => post.summary),
                tags := patch.tags.getD post.tags,
                slug := slugUpd.getD post.slug,
                status := patch.status.getD post.status,
                updated_at := now }
            .ok (some (setFirst (fun q => q.id == oid) (fun _ => p1) posts))

/-! ### Slug invariant machinery (claim C7) -/

/-- The slug invariant: every stored slug passes `is_valid_slug` and no two
stored posts share a slug. -/
def PostsInv (posts : List StoredPost) : Prop :=
  (∀ p ∈ posts, is_valid_slug p.slug = true) ∧
  posts.Pairwise (fun p q => p.slug ≠ q.slug)

/-- Storage states reachable from an empty posts collection through
`create_post` and `update_post` successes. -/
inductive PostsReachable (slugify : String → String) : List StoredPost → Prop where
  | empty : PostsReachable slugify []
  | created {posts post_data author_id now newId posts'} :
      PostsReachable slugify posts →
      create_post slugify posts post_data author_id now newId = .ok posts' →
      PostsReachable slugify posts'
  | updated {posts post_id patch author_id now posts'} :
      PostsReachable slugify posts →
      update_post slugify posts post_id patch author_id now = .ok (some posts') →
      PostsReachable slugify posts'

/-! ### Claim C7: slug format and uniqueness -/

/-- A creation payload carrying an explicit slug with a trailing newline. -/
def c7CreateData : PostCreateData :=
  { title := "Some Title", content := "body text", summary := none,
    tags := [], slug := some "abc\n", status := "draft" }

/-- The post `create_post` stores for `c7CreateData`. -/
def c7CreatedPost : StoredPost :=
  { id := "bbbbbbbbbbbbbbbbbbbbbbbb", title := "Some Title",
    content := "body text", summary := "body text", tags := [],
    slug := "abc\n", status := "draft",
    author_id := "aaaaaaaaaaaaaaaaaaaaaaaa", created_at := 0, updated_at := 0 }

/-! ### Claim C8: summary derivation -/

/-- A 250-character content whose only whitespace in the first 200 characters
is a newline at index 100 (and it contains no space character at all). -/
def c8Content : String := ⟨List.replicate 100 'a' ++ '\n' :: List.replicate 149 'b'⟩

/-! ### Comment tree: descendants and ancestor chains

The declarative notions the claims speak about.  `DescP cs rootId d` says that
`rootId` occurs on the ancestor chain of `d` in store `cs`: either `d`'s
parent field is `rootId` itself (even a dangling reference counts — this is
exactly what "a comment whose ancestor chain includes the deleted id" must
rule out), or `d`'s parent is a present comment whose own chain contains
`rootId`.  Equivalently, `d` is a strict descendant of the comment with id
`rootId`.  `DescN` additionally records the chain length. -/

inductive DescP (cs : List StoredComment) (rootId : String) : StoredComment → Prop where
  | parent {d : StoredComment} : d.parent_id = some rootId → DescP cs rootId d
  | ancestor {d : StoredComment} (p : StoredComment) : p ∈ cs →
      d.parent_id = some p.id → DescP cs rootId p → DescP cs rootId d

inductive DescN (cs : List StoredComment) (rootId : String) : StoredComment → Nat → Prop where
  | parent {d : StoredComment} : d.parent_id = some rootId → DescN cs rootId d 1
  | ancestor {d : StoredComment} (p : StoredComment) {n : Nat} : p ∈ cs →
      d.parent_id = some p.id → DescN cs rootId p n → DescN cs rootId d (n + 1)

/-- Executable ancestor chain: follow parent ids upward through the store,
bounded by fuel.  A dangling parent id still appears as the last chain entry. -/
def chainAux : Nat → List StoredComment → Option String → List String
  | 0, _, _ => []
  | _ + 1, _, none => []
  | fuel + 1, cs, some pid =>
    pid :: (match cs.find? (fun c => c.id == pid) with
            | none => []
            | some p => chainAux fuel cs p.parent_id)

/-- The ancestor chain of comment `d` in store `cs` (fuel `|cs| + 1` suffices
on stores satisfying the creation invariant). -/
def ancestorChain (cs : List StoredComment) (d : StoredComment) : List String :=
  chainAux (cs.length + 1) cs d.parent_id

/-- Executable descendant test: `rootId` occurs on `d`'s ancestor chain. -/
def isDescB (cs : List StoredComment) (rootId : String) (d : StoredComment) : Bool :=
  decide (rootId ∈ ancestorChain cs d)

/-- Ids are pairwise distinct (storage `_id` uniqueness). -/
def nodupIds (cs : List StoredComment) : Prop := (cs.map (·.id)).Nodup

instance (cs : List StoredComment) : Decidable (nodupIds cs) :=
  inferInstanceAs (Decidable (List.Nodup (List.map StoredComment.id cs)))

/-- The creation invariant, witnessed by a depth function: every stored
comment's parent id refers to a present comment of strictly smaller depth,
and all depths are below the bound `B`.  Creation order gives the canonical
witness (depth = insertion index, `B` = store size); the existential form is
stable under removing whole subtrees. -/
def DepthOK (cs : List StoredComment) (B : Nat) (depth : String → Nat) : Prop :=
  ∀ c ∈ cs, depth c.id < B ∧
    ∀ pid, c.parent_id = some pid →
      ∃ p, p ∈ cs ∧ p.id = pid ∧ depth pid < depth c.id

/-! ### Comment tree: the recursive cascading delete (`app/crud/comment.py`)

`delete_comment_replies` snapshots the direct replies of `parent_id` and, for
each, first recursively deletes its own replies and then deletes it.  The
fuel counts recursion depth, standing in for Python's recursion limit: on a
store satisfying the creation invariant, `length + 1` fuel never runs out;
on a cyclic store the Python original would hit `RecursionError` before
performing any `delete_one` (deletions only happen after the recursive call
returns), which the `.error` branch models, carrying the collection state at
the moment the exception is raised. -/

/-- The `async for` loop of `delete_comment_replies` over the snapshot of
direct replies: for each child first delete its own subtree via `rec` (the
recursion one level deeper), then delete the child itself. -/
def deleteLoopF
    (rec : List StoredComment → String →
      Except (List StoredComment) (List StoredComment)) :
    List StoredComment → List StoredComment →
      Except (List StoredComment) (List StoredComment)
  | cs, [] => .ok cs
  | cs, c :: rest =>
    match rec cs c.id with
    | .error e => .error e
    | .ok cs1 => deleteLoopF rec (cs1.eraseP (fun x => x.id == c.id)) rest

def deleteRepliesAux : Nat → List StoredComment → String →
    Except (List StoredComment) (List StoredComment)
  | 0, cs, parent_id =>
    if (cs.filter (fun c => c.parent_id == some parent_id)).isEmpty then .ok cs
    else .error cs
  | fuel + 1, cs, parent_id =>
    deleteLoopF (deleteRepliesAux fuel) cs
      (cs.filter (fun c => c.parent_id == some parent_id))

/-- Model of `delete_comment_replies` from `app/crud/comment.py`. -/
def delete_comment_replies (cs : List StoredComment) (parent_id : String) :
    Except (List StoredComment) (List StoredComment) :=
  deleteRepliesAux (cs.length + 1) cs parent_id

/-- Model of `delete_comment` from `app/crud/comment.py`.  The entire body is
wrapped in `try: ... except Exception: return False`, so a malformed id, the
`HTTPException(403)` the permission check raises, and a `RecursionError`
during the cascade all come back as `False` (with whatever state the
collection had at that point).  Returns the success flag and the new
collection. -/
def delete_comment (cs : List StoredComment) (comment_id : String)
    (author_id : Option String := none) (is_admin : Bool := false) :
    Bool × List StoredComment :=
  match objectIdNorm comment_id with
  | none => (false, cs)
  | some oid =>
    match cs.find? (fun c => c.id == oid) with
    | none => (false, cs)
    | some comment =>
      if !is_admin && author_id.any (fun a => comment.author_id != a) then
        (false, cs)
      else
        match delete_comment_replies cs comment_id with
        | .error csPartial => (false, csPartial)
        | .ok cs1 => (cs1.any (fun c => c.id == oid), cs1.eraseP (fun c => c.id == oid))

/-! ### Comment tree: the recursive reply fetch (`app/crud/comment.py`) -/

/-- A comment together with its recursively resolved replies, the shape
`get_comment_replies` returns (the source attaches a `"replies"` key to the
comment dict; an absent key is modelled as `[]`). -/
inductive CommentNode where
  | mk (out : CommentOut) (replies : List CommentNode)

def CommentNode.out : CommentNode → CommentOut
  | ⟨o, _⟩ => o

def CommentNode.replies : CommentNode → List CommentNode
  | ⟨_, r⟩ => r

/-- Sort order used by reply listings: `created_at` ascending. -/
def byCreatedAsc (a b : StoredComment) : Prop := a.created_at ≤ b.created_at

/-- Sort order used by root listings: `created_at` descending. -/
def byCreatedDesc (a b : StoredComment) : Prop := b.created_at ≤ a.created_at

instance : DecidableRel byCreatedAsc := fun x y => Nat.decLe x.created_at y.created_at

instance : DecidableRel byCreatedDesc := fun x y => Nat.decLe y.created_at x.created_at

instance : IsTotal StoredComment byCreatedAsc := ⟨fun x y => Nat.le_total x.created_at y.created_at⟩

instance : IsTotal StoredComment byCreatedDesc := ⟨fun x y => Nat.le_total y.created_at x.created_at⟩

instance : IsTrans StoredComment byCreatedAsc := ⟨fun _ _ _ => Nat.le_trans⟩

instance : IsTrans StoredComment byCreatedDesc :=
  ⟨fun _ _ _ h1 h2 => Nat.le_trans h2 h1⟩

/-- The fueled body of `get_comment_replies`: direct replies sorted by
`created_at` ascending, each refetched through `get_comment_by_id` (a
vanished or undenormalizable comment is silently skipped) and decorated with
its own recursively resolved replies. -/
def getRepliesAux : Nat → DB → String → List CommentNode
  | 0, _, _ => []
  | fuel + 1, db, parent_id =>
    let direct := (db.comments.filter
      (fun c => c.parent_id == some parent_id)).insertionSort byCreatedAsc
    direct.filterMap (fun c =>
      (get_comment_by_id db c.id).map (fun out => ⟨out, getRepliesAux fuel db c.id⟩))

/-- Model of `get_comment_replies` from `app/crud/comment.py` (fuel
`|comments| + 1` covers every store satisfying the creation invariant). -/
def get_comment_replies (db : DB) (parent_id : String) : List CommentNode :=
  getRepliesAux (db.comments.length + 1) db parent_id

/-- Model of `get_comments_by_post` from `app/crud/comment.py`.  When
`include_replies` is false the query filters on `parent_id: None`, otherwise
the query has no parent filter at all (so replies are returned as page items
too).  MongoDB's `limit(0)` means "no limit".  Replies are attached only to
items whose `parent_id` is falsy. -/
def get_comments_by_post (db : DB) (post_id : String) (limit : Nat := 50)
    (offset : Nat := 0) (include_replies : Bool := false) : List CommentNode :=
  let query := fun (c : StoredComment) =>
    c.post_id == post_id && (include_replies || c.parent_id == none)
  let sorted := (db.comments.filter query).insertionSort byCreatedDesc
  let paged := if limit = 0 then sorted.drop offset else (sorted.drop offset).take limit
  paged.filterMap (fun c =>
    (get_comment_by_id db c.id).map (fun out =>
      ⟨out, if include_replies && falsyStr c.parent_id
            then get_comment_replies db c.id else []⟩))

mutual
def flattenNode : CommentNode → List CommentOut
  | ⟨out, replies⟩ => out :: flattenForest replies

def flattenForest : List CommentNode → List CommentOut
  | [] => []
  | n :: rest => flattenNode n ++ flattenForest rest
end

/-- Every level of the tree rooted at this node lists its replies in
ascending `created_at` order. -/
inductive NodeSorted : CommentNode → Prop where
  | mk {out : CommentOut} {replies : List CommentNode} :
      replies.Pairwise (fun a b => a.out.created_at ≤ b.out.created_at) →
      (∀ r ∈ replies, NodeSorted r) → NodeSorted ⟨out, replies⟩

/-- A forest whose every level is in ascending `created_at` order. -/
def ForestSorted (f : List CommentNode) : Prop :=
  f.Pairwise (fun a b => a.out.created_at ≤ b.out.created_at) ∧ ∀ n ∈ f, NodeSorted n

/-- The record `get_comment_by_id` returns for a stored comment with
canonical ids (see `get_comment_by_id_denorm`). -/
def denormComment (db : DB) (c : StoredComment) : CommentOut :=
  let authorOpt := (db.users.find? (fun u => u.id == c.author_id)).map
    (fun u => ⟨u.id, u.username, u.full_name, u.bio⟩)
  { id := c.id, post_id := c.post_id, parent_id := c.parent_id,
    content := c.content, author := authorOpt,
    author_id := if authorOpt.isSome then none else some c.author_id,
    created_at := c.created_at, updated_at := c.updated_at }

/-- The well-formedness invariant creation maintains for the comment store:
distinct canonical ids, canonical author ids, and parents that exist and are
acyclic (depth-bounded by the store size). -/
def WFdb (db : DB) : Prop :=
  nodupIds db.comments ∧
  (∃ depth, DepthOK db.comments db.comments.length depth) ∧
  (∀ c ∈ db.comments, isCanonicalOid c.id = true ∧ isCanonicalOid c.author_id = true)

/-! ### Transfer of descendant chains into a partially deleted store -/

/-- The set of comments removed after fully processing the children in
`done`: those that are one of them or descend from one of them. -/
def RemovedBy (cs done : List StoredComment) (x : StoredComment) : Prop :=
  ∃ c' ∈ done, x.id = c'.id ∨ DescP cs c'.id x

/-! ### Route layer and remaining data-access models -/

/-- The authenticated actor a route handler receives from `get_current_user`
(`app/core/deps.py`): the user document with its public fields. -/
structure CurrentUser where
  id : String
  username : String
  role : String
  full_name : Option String
  bio : Option String
deriving DecidableEq

/-- Error responses a route can produce: 422 (query validation), 404, 403,
and 500. -/
inductive RouteErr where
  | validation
  | notFound
  | forbidden
  | serverError
deriving DecidableEq

/-- Errors `update_comment` can raise: the uncaught `bson.InvalidId` from
`ObjectId(comment_id)` and the `HTTPException(403)` of the author check
(neither is caught inside the function, so both propagate to the caller). -/
inductive CrudErr where
  | invalidId
  | forbidden
deriving DecidableEq

/-- Model of `pagination_params` from `app/core/deps.py`:
`limit: Query(10, ge=1, le=100)`, `offset: Query(0, ge=0)`.  A missing
parameter takes the default; an out-of-range value is rejected with a 422
validation error (FastAPI rejects, it does not clamp). -/
def pagination_params (limit offset : Option Int) : Except RouteErr (Int × Int) :=
  let l := limit.getD 10
  if l < 1 || 100 < l then .error .validation
  else
    let o := offset.getD 0
    if o < 0 then .error .validation
    else .ok (l, o)

/-- Model of `update_comment` from `app/crud/comment.py`: find the comment
(`None` when absent), raise 403 unless the stored `author_id` equals the
caller (no admin bypass at this layer), then `$set` the new content and
`updated_at` and refetch.  Returns the refetched comment and the updated
collection. -/
def update_comment (db : DB) (comment_id : String) (content : String)
    (author_id : String) (now : Nat) :
    Except CrudErr (Option CommentOut × List StoredComment) :=
  match objectIdNorm comment_id with
  | none => .error .invalidId
  | some oid =>
    match db.comments.find? (fun c => c.id == oid) with
    | none => .ok (none, db.comments)
    | some comment =>
      if comment.author_id != author_id then .error .forbidden
      else
        let cs' := setFirst (fun c => c.id == oid)
          (fun c => { c with content := content, updated_at := now }) db.comments
        .ok (get_comment_by_id { db with comments := cs' } comment_id, cs')

/-- Model of `update_comment_route` from `app/routes/comments.py`: 404 when
the comment is not found, 403 when the caller is neither the (denormalized)
author nor an admin, then delegate to `update_comment` — whose own 403
propagates as-is (so an admin who passed the route check can still receive
403 from the crud layer), and whose uncaught `InvalidId` would surface as a
500. -/
def update_comment_route (db : DB) (current_user : CurrentUser)
    (comment_id : String) (content : String) (now : Nat) :
    Except RouteErr CommentOut × DB :=
  match get_comment_by_id db comment_id with
  | none => (.error .notFound, db)
  | some comment =>
    if (comment.author.map (fun a => a.id)) != some current_user.id &&
        current_user.role != "admin" then
      (.error .forbidden, db)
    else
      match update_comment db comment_id content current_user.id now with
      | .error .forbidden => (.error .forbidden, db)
      | .error .invalidId => (.error .serverError, db)
      | .ok (some out, cs') => (.ok out, { db with comments := cs' })
      | .ok (none, cs') => (.error .serverError, { db with comments := cs' })

/-- Model of `delete_comment_route` from `app/routes/comments.py`: 404 when
the comment is not found; otherwise call `delete_comment` with
`author_id = None` for admins and the caller's id otherwise, and turn a
`False` result into a 500 "Failed to delete comment" (note: no 403 is ever
produced here — the crud layer's 403 is swallowed by its own
`except Exception` and resurfaces as this 500). -/
def delete_comment_route (db : DB) (current_user : CurrentUser)
    (comment_id : String) : Except RouteErr Unit × DB :=
  match get_comment_by_id db comment_id with
  | none => (.error .notFound, db)
  | some comment =>
    let _is_author := (comment.author.map (fun a => a.id)) == some current_user.id
    let is_admin := current_user.role == "admin"
    let res := delete_comment db.comments comment_id
      (if is_admin then none else some current_user.id) is_admin
    let db' := { db with comments := res.2 }
    if res.1 then (.ok (), db') else (.error .serverError, db')

/-- A user-comment listing item: the denormalized comment plus the owning
post's title when the post exists. -/
structure UserCommentOut where
  comment : CommentOut
  post_title : Option String
deriving DecidableEq

/-- The per-item body of `get_user_comments`: skip comments whose refetch
fails, and attach the post title — `ObjectId(post_id)` here is *not* inside
a `try`, so a malformed stored `post_id` raises out of the whole listing. -/
def userCommentsLoop (db : DB) : List StoredComment →
    Except PyErr (List UserCommentOut)
  | [] => .ok []
  | c :: rest =>
    match get_comment_by_id db c.id with
    | none => userCommentsLoop db rest
    | some out =>
      match objectIdNorm out.post_id with
      | none => .error .invalidObjectId
      | some poid =>
        let title := (db.posts.find? (fun p => p.id == poid)).map (fun p => p.title)
        match userCommentsLoop db rest with
        | .error e => .error e
        | .ok rest' => .ok ({ comment := out, post_title := title } :: rest')

/-- Model of `get_user_comments` from `app/crud/comment.py`. -/
def get_user_comments (db : DB) (user_id : String) (limit : Nat := 20)
    (offset : Nat := 0) : Except PyErr (List UserCommentOut) :=
  let sorted := (db.comments.filter
    (fun c => c.author_id == user_id)).insertionSort byCreatedDesc
  let paged := if limit = 0 then sorted.drop offset else (sorted.drop offset).take limit
  userCommentsLoop db paged

/-- The `CommentList` payload of the current user's comment listing. -/
structure UserCommentsPage where
  total : Nat
  limit : Int
  offset : Int
  items : List UserCommentOut
deriving DecidableEq

/-- Model of `read_users_me_comments` from `app/routes/users.py`: pagination
comes from the shared `pagination_params` dependency (so the effective
default limit is 10 — the crud function's own default of 20 is never used by
this route). -/
def read_users_me_comments (db : DB) (current_user : CurrentUser)
    (limitQ offsetQ : Option Int) : Except RouteErr UserCommentsPage :=
  match pagination_params limitQ offsetQ with
  | .error e => .error e
  | .ok (l, o) =>
    match get_user_comments db current_user.id l.toNat o.toNat with
    | .error _ => .error .serverError
    | .ok items =>
      .ok { total := db.comments.countP (fun c => c.author_id == current_user.id),
            limit := l, offset := o, items := items }

/-- The filter dictionary `post_filter_params` produces (only truthy query
parameters become keys). -/
structure PostFilters where
  status : Option String
  tags : Option String
  author_id : Option String
deriving DecidableEq

/-- The MongoDB query both `get_posts` and `get_posts_count` build: status
defaults to `published` when no status filter is present; a tag filter
matches posts whose tag array contains the value (MongoDB equality on an
array field); an author filter matches on equality. -/
def postsQuery (filters : Option PostFilters) (p : StoredPost) : Bool :=
  (p.status == ((filters.bind (fun f => f.status)).getD "published")) &&
  ((filters.bind (fun f => f.tags)).all (fun t => p.tags.contains t)) &&
  ((filters.bind (fun f => f.author_id)).all (fun a => p.author_id == a))

/-- Model of `get_posts` from `app/crud/post.py`. -/
def get_posts (db : DB) (limit : Nat := 10) (offset : Nat := 0)
    (filters : Option PostFilters := none) : List PostOut :=
  let sorted := (db.posts.filter (postsQuery filters)).insertionSort
    (fun a b => b.created_at ≤ a.created_at)
  let paged := if limit = 0 then sorted.drop offset else (sorted.drop offset).take limit
  paged.filterMap (fun p => get_post_by_id db p.id)

/-- Model of `get_posts_count` from `app/crud/post.py`. -/
def get_posts_count (db : DB) (filters : Option PostFilters := none) : Nat :=
  db.posts.countP (postsQuery filters)

/-- The `PostList` payload of the posts listing. -/
structure PostsPage where
  total : Nat
  limit : Int
  offset : Int
  items : List PostOut
deriving DecidableEq

/-- Model of `get_posts_route` from `app/routes/posts.py`. -/
def get_posts_route (db : DB) (limitQ offsetQ : Option Int)
    (filters : Option PostFilters) : Except RouteErr PostsPage :=
  match pagination_params limitQ offsetQ with
  | .error e => .error e
  | .ok (l, o) =>
    .ok { total := get_posts_count db filters, limit := l, offset := o,
          items := get_posts db l.toNat o.toNat filters }

/-- The `CommentList` payload of a post's comment listing. -/
structure PostCommentsPage where
  total : Nat
  limit : Int
  offset : Int
  items : List CommentNode

/-- Model of `get_post_comments` from `app/routes/posts.py`: 404 when the
post does not resolve, then `get_comments_by_post` with the shared
pagination (so the effective default limit is 10, not the crud function's
own 50). -/
def get_post_comments_route (db : DB) (post_id : String)
    (limitQ offsetQ : Option Int) (include_replies : Bool) :
    Except RouteErr PostCommentsPage :=
  match pagination_params limitQ offsetQ with
  | .error e => .error e
  | .ok (l, o) =>
    match get_post_by_id db post_id with
    | none => .error .notFound
    | some _ =>
      .ok { total := db.comments.countP (fun c => c.post_id == post_id),
            limit := l, offset := o,
            items := get_comments_by_post db post_id l.toNat o.toNat include_replies }

/-- The two-comment store of the delete witnesses: one root, one reply. -/
def c1Root : StoredComment :=
  { id := "aaaaaaaaaaaaaaaaaaaaaaaa", post_id := "cccccccccccccccccccccccc",
    parent_id := none, content := "root", author_id := "dddddddddddddddddddddddd",
    created_at := 0, updated_at := 0 }

def c1Reply : StoredComment :=
  { id := "bbbbbbbbbbbbbbbbbbbbbbbb", post_id := "cccccccccccccccccccccccc",
    parent_id := some "aaaaaaaaaaaaaaaaaaaaaaaa", content := "reply",
    author_id := "dddddddddddddddddddddddd", created_at := 1, updated_at := 1 }

/-! ### Claim C3: what a forbidden delete actually produces -/

/-- The three-user fixture for the permission claims. -/
def aliceUser : StoredUser :=
  { id := "dddddddddddddddddddddddd", username := "alice", full_name := none,
    bio := none, password := "hash-a" }

def bobUser : StoredUser :=
  { id := "eeeeeeeeeeeeeeeeeeeeeeee", username := "bob", full_name := none,
    bio := none, password := "hash-b" }

def bobActor : CurrentUser :=
  { id := "eeeeeeeeeeeeeeeeeeeeeeee", username := "bob", role := "user",
    full_name := none, bio := none }

def c3db : DB :=
  { posts := [], comments := [c1Root, c1Reply], users := [aliceUser, bobUser] }

/-! ### Claim C6: who may edit a comment -/

/-- The author of the two-comment thread as an authenticated actor. -/
def aliceActor : CurrentUser :=
  { id := "dddddddddddddddddddddddd", username := "alice", role := "user",
    full_name := none, bio := none }

/-- A non-author administrator. -/
def adminActor : CurrentUser :=
  { id := "eeeeeeeeeeeeeeeeeeeeeeee", username := "bob", role := "admin",
    full_name := none, bio := none }

/-! ### Claim C9: pagination defaults -/

/-- A published post for the pagination fixtures. -/
def c9Post : StoredPost :=
  { id := "ffffffffffffffffffffffff", title := "t", content := "c",
    summary := "s", tags := [], slug := "t", status := "published",
    author_id := "dddddddddddddddddddddddd", created_at := 0, updated_at := 0 }

/-- The fixture store for the pagination claims. -/
def c9db : DB :=
  { posts := [c9Post], comments := [c1Root, c1Reply],
    users := [aliceUser, bobUser] }

theorem hexLower_of_lower {c : Char} (h : isLowerHex c = true) : hexLower c = c := by
  simp only [isLowerHex, Bool.or_eq_true, Bool.and_eq_true, decide_eq_true_eq] at h
  simp only [hexLower, Bool.and_eq_true, decide_eq_true_eq]
  rw [if_neg]
  omega

theorem isHexChar_of_lower {c : Char} (h : isLowerHex c = true) : isHexChar c = true := by
  simp only [isLowerHex, Bool.or_eq_true, Bool.and_eq_true, decide_eq_true_eq] at h
  simp only [isHexChar, Bool.or_eq_true, Bool.and_eq_true, decide_eq_true_eq]
  omega

theorem map_hexLower_of_lower : ∀ {l : List Char}, l.all isLowerHex = true →
    l.map hexLower = l := by
  intro l
  induction l with
  | nil => intro _; rfl
  | cons c cs ih =>
    intro h
    simp only [List.all_cons, Bool.and_eq_true] at h
    simp [hexLower_of_lower h.1, ih h.2]

/-- A canonical object id string is parsed back to itself. -/
theorem objectIdNorm_canonical {s : String} (h : isCanonicalOid s = true) :
    objectIdNorm s = some s := by
  simp only [isCanonicalOid, Bool.and_eq_true, decide_eq_true_eq] at h
  have hall : s.data.all isHexChar = true := by
    simp only [List.all_eq_true] at h ⊢
    exact fun c hc => isHexChar_of_lower (h.2 c hc)
  have hmap := map_hexLower_of_lower h.2
  simp only [objectIdNorm]
  rw [if_pos (by simp [h.1, hall])]
  rw [hmap]

/-- When `rfindP` finds nothing, no character of the list satisfies `p`. -/
theorem rfindP_none {l : List Char} {p : Char → Bool} (h : rfindP l p = none) :
    ∀ c ∈ l, p c = false := by
  induction l with
  | nil => simp
  | cons c cs ih =>
    simp only [rfindP] at h
    cases hr : rfindP cs p with
    | some k => rw [hr] at h; simp at h
    | none =>
      rw [hr] at h
      intro d hd
      rcases List.mem_cons.1 hd with rfl | hmem
      · by_contra hp
        rw [if_pos (by simpa using hp)] at h
        cases h
      · exact ih hr d hmem

/-- When `rfindP` finds an index, it is the greatest index whose character
satisfies `p`. -/
theorem rfindP_some {l : List Char} {p : Char → Bool} {j : Nat}
    (h : rfindP l p = some j) :
    l[j]?.any p = true ∧ ∀ i, j < i → l[i]?.any p = false := by
  induction l generalizing j with
  | nil => simp [rfindP] at h
  | cons c cs ih =>
    simp only [rfindP] at h
    cases hr : rfindP cs p with
    | some k =>
      rw [hr] at h
      simp only [Option.some.injEq] at h
      subst h
      obtain ⟨h1, h2⟩ := ih hr
      refine ⟨by simpa using h1, ?_⟩
      intro i hi
      cases i with
      | zero => omega
      | succ i' => simpa using h2 i' (by omega)
    | none =>
      rw [hr] at h
      by_cases hc : p c = true
      · rw [if_pos hc] at h
        simp only [Option.some.injEq] at h
        subst h
        refine ⟨by simpa using hc, ?_⟩
        intro i hi
        cases i with
        | zero => omega
        | succ i' =>
          simp only [List.getElem?_cons_succ]
          cases hg : cs[i']? with
          | none => rfl
          | some d =>
            simpa [hg] using rfindP_none hr d (List.getElem?_mem hg)
      · rw [if_neg hc] at h; cases h

theorem is_valid_slug_of_pattern {s : String} (h : slugPatternCore s.data = true) :
    is_valid_slug s = true := by
  simp [is_valid_slug, h]

theorem find?_decomp {α : Type} {p : α → Bool} {l : List α} {x : α}
    (h : l.find? p = some x) :
    ∃ l₁ l₂, l = l₁ ++ x :: l₂ ∧ ∀ y ∈ l₁, p y = false := by
  induction l with
  | nil => simp at h
  | cons a as ih =>
    cases hp : p a with
    | true =>
      rw [List.find?_cons_of_pos _ hp] at h
      obtain rfl : a = x := by simpa using h
      exact ⟨[], as, rfl, by simp⟩
    | false =>
      rw [List.find?_cons_of_neg _ (by simp [hp])] at h
      obtain ⟨l₁, l₂, rfl, hl₁⟩ := ih h
      refine ⟨a :: l₁, l₂, rfl, ?_⟩
      intro y hy
      rcases List.mem_cons.1 hy with rfl | hy'
      · exact hp
      · exact hl₁ y hy'

theorem setFirst_append {α : Type} {p : α → Bool} {f : α → α} {x : α}
    {l₁ l₂ : List α} (h₁ : ∀ y ∈ l₁, p y = false) (hx : p x = true) :
    setFirst p f (l₁ ++ x :: l₂) = l₁ ++ f x :: l₂ := by
  induction l₁ with
  | nil => simp [setFirst, hx]
  | cons a as ih =>
    have ha := h₁ a (by simp)
    simp only [List.cons_append, setFirst, ha]
    simp only [Bool.false_eq_true, if_false, List.cons.injEq, true_and]
    exact ih fun y hy => h₁ y (by simp [hy])

/-- Appending a fresh, valid-slug post preserves the slug invariant. -/
theorem inv_append_fresh {posts : List StoredPost} (hinv : PostsInv posts)
    {np : StoredPost} (hv : is_valid_slug np.slug = true)
    (hfresh : posts.any (fun p => p.slug == np.slug) = false) :
    PostsInv (posts ++ [np]) := by
  obtain ⟨h1, h2⟩ := hinv
  rw [List.any_eq_false] at hfresh
  constructor
  · intro p hp
    rcases List.mem_append.1 hp with hp | hp
    · exact h1 p hp
    · rw [List.mem_singleton] at hp
      subst hp
      exact hv
  · rw [List.pairwise_append]
    refine ⟨h2, by simp, ?_⟩
    intro a ha b hb
    rw [List.mem_singleton] at hb
    subst hb
    have := hfresh a ha
    simpa using this

/-- Replacing one post in place by a post whose slug is either unchanged or
fresh across the whole collection preserves the slug invariant. -/
theorem inv_replace {l₁ l₂ : List StoredPost} {post p1 : StoredPost}
    (hinv : PostsInv (l₁ ++ post :: l₂))
    (hv : is_valid_slug p1.slug = true)
    (hslug : p1.slug = post.slug ∨ ∀ q ∈ l₁ ++ post :: l₂, q.slug ≠ p1.slug) :
    PostsInv (l₁ ++ p1 :: l₂) := by
  obtain ⟨h1, h2⟩ := hinv
  constructor
  · intro q hq
    rcases List.mem_append.1 hq with hq | hq
    · exact h1 q (List.mem_append.2 (Or.inl hq))
    · rcases List.mem_cons.1 hq with rfl | hq'
      · exact hv
      · exact h1 q (List.mem_append.2 (Or.inr (List.mem_cons.2 (Or.inr hq'))))
  · rw [List.pairwise_append] at h2 ⊢
    obtain ⟨h2a, h2b, h2c⟩ := h2
    rw [List.pairwise_cons] at h2b ⊢
    obtain ⟨hpost, h2l₂⟩ := h2b
    refine ⟨h2a, ⟨?_, h2l₂⟩, ?_⟩
    · intro b hb
      rcases hslug with he | hfr
      · rw [he]; exact hpost b hb
      · intro hc
        exact hfr b (List.mem_append.2 (Or.inr (List.mem_cons.2 (Or.inr hb)))) hc.symm
    · intro a ha b hb
      rcases List.mem_cons.1 hb with rfl | hb'
      · rcases hslug with he | hfr
        · rw [he]; exact h2c a ha post (List.mem_cons.2 (Or.inl rfl))
        · exact hfr a (List.mem_append.2 (Or.inl ha))
      · exact h2c a ha b (List.mem_cons.2 (Or.inr hb'))

/-- A successful `create_post` preserves the slug invariant, provided the
external `slugify` produces strings matching the slug pattern (its contract
per the spec). -/
theorem create_post_inv {slugify : String → String}
    (hs : ∀ t, slugPatternCore (slugify t).data = true)
    {posts : List StoredPost} (hinv : PostsInv posts)
    {d : PostCreateData} {a : String} {now : Nat} {nid : String}
    {posts' : List StoredPost}
    (h : create_post slugify posts d a now nid = .ok posts') : PostsInv posts' := by
  cases hf : falsyStr d.slug with
  | true =>
    simp only [create_post, hf, if_true] at h
    cases hany : posts.any (fun p => p.slug == slugify d.title) with
    | true => rw [hany] at h; simp at h
    | false =>
      rw [hany] at h
      simp only [Bool.false_eq_true, if_false, Except.ok.injEq] at h
      subst h
      exact inv_append_fresh hinv (is_valid_slug_of_pattern (hs d.title)) hany
  | false =>
    cases hv : is_valid_slug (d.slug.getD "") with
    | false => simp [create_post, hf, hv] at h
    | true =>
      simp only [create_post, hf, Bool.false_eq_true, if_false, hv, if_true] at h
      cases hany : posts.any (fun p => p.slug == d.slug.getD "") with
      | true => rw [hany] at h; simp at h
      | false =>
        rw [hany] at h
        simp only [Bool.false_eq_true, if_false, Except.ok.injEq] at h
        subst h
        exact inv_append_fresh hinv hv hany

/-- A successful `update_post` preserves the slug invariant, under the same
`slugify` contract. -/
theorem update_post_inv {slugify : String → String}
    (hs : ∀ t, slugPatternCore (slugify t).data = true)
    {posts : List StoredPost} (hinv : PostsInv posts)
    {post_id : String} {patch : PostUpdateData} {author_id : Option String}
    {now : Nat} {posts' : List StoredPost}
    (h : update_post slugify posts post_id patch author_id now = .ok (some posts')) :
    PostsInv posts' := by
  unfold update_post at h
  cases hnorm : objectIdNorm post_id with
  | none => simp only [hnorm] at h; simp at h
  | some oid =>
    simp only [hnorm] at h
    cases hfind : posts.find? (fun p => p.id == oid) with
    | none => simp only [hfind] at h; simp at h
    | some post =>
      simp only [hfind] at h
      cases hauth : author_id.any (fun a => post.author_id != a) with
      | true => simp only [hauth, if_true] at h; simp at h
      | false =>
        simp only [hauth, Bool.false_eq_true, if_false] at h
        have hpx : (post.id == oid) = true := by simpa using List.find?_some hfind
        obtain ⟨l₁, l₂, heq, hl₁⟩ := find?_decomp hfind
        have hmem : post ∈ posts := by
          rw [heq]
          exact List.mem_append.2 (Or.inr (List.mem_cons.2 (Or.inl rfl)))
        have hinv2 : PostsInv (l₁ ++ post :: l₂) := by rw [← heq]; exact hinv
        -- analyze the slug branch of the patch
        cases hps : patch.slug with
        | none =>
          simp only [hps, Bool.false_eq_true, if_false, Except.ok.injEq,
            Option.some.injEq] at h
          subst h
          rw [heq, setFirst_append hl₁ hpx]
          exact inv_replace hinv2 (hinv.1 post hmem) (Or.inl rfl)
        | some s =>
          simp only [hps] at h
          by_cases hemp : s.isEmpty = true
          · rw [if_pos hemp] at h
            cases hdup : (slugify (pyOrTitle patch.title post.title) != post.slug &&
                posts.any (fun q => q.slug == slugify (pyOrTitle patch.title post.title))) with
            | true => simp only [hdup, if_true] at h; simp at h
            | false =>
              simp only [hdup, Bool.false_eq_true, if_false, Except.ok.injEq,
                Option.some.injEq] at h
              subst h
              rw [heq, setFirst_append hl₁ hpx]
              have hv1 : is_valid_slug (slugify (pyOrTitle patch.title post.title)) = true :=
                is_valid_slug_of_pattern (hs _)
              rcases Bool.and_eq_false_iff.1 hdup with hd1 | hd2
              · have hsl : slugify (pyOrTitle patch.title post.title) = post.slug := by
                  simpa using hd1
                exact inv_replace hinv2 (by simpa using hv1)
                  (Or.inl (by simpa using hsl))
              · rw [List.any_eq_false] at hd2
                refine inv_replace hinv2 (by simpa using hv1) (Or.inr ?_)
                intro q hq
                have := hd2 q (by rw [heq]; exact hq)
                simpa using this
          · rw [if_neg hemp] at h
            cases hv : is_valid_slug s with
            | false => simp only [hv, Bool.false_eq_true, if_false] at h; simp at h
            | true =>
              simp only [hv, if_true] at h
              cases hdup : (s != post.slug && posts.any (fun q => q.slug == s)) with
              | true => simp only [hdup, if_true] at h; simp at h
              | false =>
                simp only [hdup, Bool.false_eq_true, if_false, Except.ok.injEq,
                  Option.some.injEq] at h
                subst h
                rw [heq, setFirst_append hl₁ hpx]
                rcases Bool.and_eq_false_iff.1 hdup with hd1 | hd2
                · have hsl : s = post.slug := by simpa using hd1
                  exact inv_replace hinv2 (by simpa using hv)
                    (Or.inl (by simpa using hsl))
                · rw [List.any_eq_false] at hd2
                  refine inv_replace hinv2 (by simpa using hv) (Or.inr ?_)
                  intro q hq
                  have := hd2 q (by rw [heq]; exact hq)
                  simpa using this

/-- Claim C7, counterexample.  `is_valid_slug` uses Python's `re.match` with a
`$` anchor, which also matches just before one trailing newline, so
`create_post` accepts the explicit slug `"abc\n"`: the resulting storage state
is reachable yet its stored slug does not match `^[a-z0-9]+(-[a-z0-9]+)*$`
(here checked as a full-string match). -/
theorem c7_counterexample :
    create_post (fun _ => "some-title") [] c7CreateData "aaaaaaaaaaaaaaaaaaaaaaaa" 0
        "bbbbbbbbbbbbbbbbbbbbbbbb" = .ok [c7CreatedPost] ∧
    PostsReachable (fun _ => "some-title") [c7CreatedPost] ∧
    c7CreatedPost.slug = "abc\n" ∧
    slugPatternCore c7CreatedPost.slug.data = false ∧
    is_valid_slug "abc\n" = true := by
  have hcr : create_post (fun _ => "some-title") [] c7CreateData
      "aaaaaaaaaaaaaaaaaaaaaaaa" 0 "bbbbbbbbbbbbbbbbbbbbbbbb" = .ok [c7CreatedPost] := by
    rfl
  exact ⟨hcr, .created .empty hcr, by decide, by decide, by decide⟩

/-- Claim C7, amended.  In every storage state reachable through post create
and post update, every stored post's slug passes the source's `is_valid_slug`
check — which accepts the pattern `^[a-z0-9]+(-[a-z0-9]+)*$` *or* such a slug
followed by one trailing newline (Python `$` semantics) — and no two stored
posts share a slug.  Both operations reject a malformed explicit slug with an
invalid-slug error and a slug already in use with a duplicate-slug error, and
a slug derived from the title satisfies the strict pattern provided the
external `slugify` utility honours its contract (the `hs` hypothesis, which
is the spec's description of the external collaborator). -/
theorem c7_slug_invariant_amended (slugify : String → String)
    (hs : ∀ t, slugPatternCore (slugify t).data = true) :
    (∀ posts, PostsReachable slugify posts → PostsInv posts) ∧
    (∀ posts d a now nid, falsyStr d.slug = false →
      is_valid_slug (d.slug.getD "") = false →
      create_post slugify posts d a now nid = .error .invalidSlug) ∧
    (∀ posts d a now nid, falsyStr d.slug = false →
      is_valid_slug (d.slug.getD "") = true →
      posts.any (fun p => p.slug == d.slug.getD "") = true →
      create_post slugify posts d a now nid = .error .duplicateSlug) ∧
    (∀ posts d a now nid, falsyStr d.slug = true →
      posts.any (fun p => p.slug == slugify d.title) = true →
      create_post slugify posts d a now nid = .error .duplicateSlug) ∧
    (∀ posts post_id oid patch author_id now post s,
      objectIdNorm post_id = some oid →
      posts.find? (fun p => p.id == oid) = some post →
      author_id.any (fun a => post.author_id != a) = false →
      patch.slug = some s → s.isEmpty = false → is_valid_slug s = false →
      update_post slugify posts post_id patch author_id now = .error .invalidSlug) ∧
    (∀ posts post_id oid patch author_id now post s,
      objectIdNorm post_id = some oid →
      posts.find? (fun p => p.id == oid) = some post →
      author_id.any (fun a => post.author_id != a) = false →
      patch.slug = some s → s.isEmpty = false → is_valid_slug s = true →
      (s != post.slug && posts.any (fun q => q.slug == s)) = true →
      update_post slugify posts post_id patch author_id now = .error .duplicateSlug) := by
  refine ⟨?_, ?_, ?_, ?_, ?_, ?_⟩
  · intro posts hr
    induction hr with
    | empty => exact ⟨by simp, by simp⟩
    | created _ hcr ih => exact create_post_inv hs ih hcr
    | updated _ hup ih => exact update_post_inv hs ih hup
  · intro posts d a now nid h1 h2
    simp [create_post, h1, h2]
  · intro posts d a now nid h1 h2 h3
    simp [create_post, h1, h2, h3]
  · intro posts d a now nid h1 h2
    simp [create_post, h1, h2]
  · intro posts post_id oid patch author_id now post s hnorm hfind hauth hps hemp hv
    unfold update_post
    simp [hnorm, hfind, hauth, hps, hemp, hv]
  · intro posts post_id oid patch author_id now post s hnorm hfind hauth hps hemp hv hdup
    unfold update_post
    simp [hnorm, hfind, hauth, hps, hemp, hv, hdup]

/-- The constant slug utility used by the witness satisfies the `slugify`
contract. -/
theorem c7_slugify_contract (_t : String) :
    slugPatternCore ("valid-slug" : String).data = true := by
  decide

/-- Witness for `c7_slug_invariant_amended`: the empty state is reachable and
satisfies the invariant, and a concrete malformed explicit slug is rejected. -/
theorem c7_slug_invariant_amended_witness :
    PostsInv [] ∧
    create_post (fun _ => "valid-slug") []
      { title := "T", content := "c", summary := none, tags := [],
        slug := some "Bad Slug!", status := "draft" } "a" 0 "n" =
      .error .invalidSlug :=
  ⟨(c7_slug_invariant_amended (fun _ => "valid-slug") c7_slugify_contract).1 []
     .empty,
   (c7_slug_invariant_amended (fun _ => "valid-slug") c7_slugify_contract).2.1 []
     { title := "T", content := "c", summary := none, tags := [],
       slug := some "Bad Slug!", status := "draft" } "a" 0 "n"
     (by decide) (by decide)⟩

set_option maxRecDepth 100000 in
/-- Claim C8, counterexample.  `c8Content` has 250 characters and a whitespace
boundary (a newline) at index 100, with no whitespace between indices 101 and
199; the code nevertheless keeps the first 200 characters — cutting mid-word
past that boundary — because `get_summary_from_content` only searches for the
space character `' '` (`str.rfind(' ')`), not for arbitrary whitespace.  The
output therefore differs from the claimed "longest prefix of at most 200
characters ending at a whitespace boundary plus the ellipsis suffix" (whether
the boundary character itself is included or not). -/
theorem c8_counterexample :
    c8Content.data.length = 250 ∧
    c8Content.data[100]? = some '\n' ∧
    pySpaceChar '\n' = true ∧
    (∀ i ∈ List.range 200, 100 < i → c8Content.data[i]?.any pySpaceChar = false) ∧
    get_summary_from_content c8Content = ⟨c8Content.data.take 200 ++ "...".data⟩ ∧
    get_summary_from_content c8Content ≠ ⟨c8Content.data.take 100 ++ "...".data⟩ ∧
    get_summary_from_content c8Content ≠ ⟨c8Content.data.take 101 ++ "...".data⟩ := by
  refine ⟨by decide, by decide, by decide, by decide, by decide, by decide, by decide⟩

/-- Claim C8, amended: for a post created without an explicit summary the
stored summary is the content itself when it has at most 200 characters
(without any ellipsis); otherwise the first 200 characters are kept and cut at
the last space character `' '` (not at an arbitrary whitespace boundary) when
one exists among them — keeping all 200 characters when none does — then
right-stripped of trailing whitespace and suffixed with `"..."`. -/
theorem c8_summary_amended (content : String) :
    (content.data.length ≤ 200 → get_summary_from_content content = content) ∧
    (200 < content.data.length →
      (∃ j, j < 200 ∧ content.data[j]? = some ' ' ∧
        (∀ i, j < i → i < 200 → content.data[i]? ≠ some ' ') ∧
        get_summary_from_content content =
          ⟨rstripChars (content.data.take j) ++ "...".data⟩) ∨
      ((∀ i, i < 200 → content.data[i]? ≠ some ' ') ∧
        get_summary_from_content content =
          ⟨rstripChars (content.data.take 200) ++ "...".data⟩)) := by
  constructor
  · intro h
    unfold get_summary_from_content
    rw [if_pos h]
  · intro h
    have hneg : ¬ content.data.length ≤ 200 := by omega
    unfold get_summary_from_content
    rw [if_neg hneg]
    cases hr : rfindP (content.data.take 200) (fun c => c == ' ') with
    | some j =>
      left
      obtain ⟨hj, hgt⟩ := rfindP_some hr
      have hjlt : j < 200 := by
        by_contra hge
        rw [List.getElem?_eq_none (by
          have := List.length_take 200 content.data
          omega)] at hj
        simp at hj
      have hjget : content.data[j]? = some ' ' := by
        rw [List.getElem?_take] at hj
        rw [if_pos hjlt] at hj
        cases hg : content.data[j]? with
        | none => rw [hg] at hj; simp at hj
        | some c =>
          rw [hg] at hj
          simp only [Option.any_some, beq_iff_eq] at hj
          rw [hj]
      refine ⟨j, hjlt, hjget, ?_, ?_⟩
      · intro i hji hilt hcon
        have := hgt i hji
        rw [List.getElem?_take, if_pos hilt, hcon] at this
        simp at this
      · simp only [hr]
        rw [List.take_take, Nat.min_eq_left (by omega)]
    | none =>
      right
      refine ⟨?_, ?_⟩
      · intro i hilt hcon
        have hmem : (' ' : Char) ∈ content.data.take 200 := by
          refine List.getElem?_mem (n := i) ?_
          rw [List.getElem?_take, if_pos hilt, hcon]
        have := rfindP_none hr ' ' hmem
        simp at this
      · simp only [hr]

set_option maxRecDepth 100000 in
/-- Witness for `c8_summary_amended` at a 201-character content with no
space. -/
theorem c8_summary_amended_witness :
    200 < (⟨List.replicate 201 'a'⟩ : String).data.length ∧
    ((∃ j, j < 200 ∧ (⟨List.replicate 201 'a'⟩ : String).data[j]? = some ' ' ∧
        (∀ i, j < i → i < 200 →
          (⟨List.replicate 201 'a'⟩ : String).data[i]? ≠ some ' ') ∧
        get_summary_from_content ⟨List.replicate 201 'a'⟩ =
          ⟨rstripChars ((⟨List.replicate 201 'a'⟩ : String).data.take j) ++ "...".data⟩) ∨
      ((∀ i, i < 200 → (⟨List.replicate 201 'a'⟩ : String).data[i]? ≠ some ' ') ∧
        get_summary_from_content ⟨List.replicate 201 'a'⟩ =
          ⟨rstripChars ((⟨List.replicate 201 'a'⟩ : String).data.take 200) ++ "...".data⟩)) :=
  ⟨by decide, (c8_summary_amended ⟨List.replicate 201 'a'⟩).2 (by decide)⟩

/-! ### Claim C10: totality of the public getters -/

/-- Claim C10: the public `getById` reads for comments and posts never
propagate a failure.  A malformed id (one `bson.ObjectId` rejects) yields
`none`; an id absent from the collection yields `none`; and a failure while
denormalizing the author (a malformed stored `author_id`) also yields `none`
instead of an error, because the whole body is wrapped in
`try: ... except Exception: return None`.  (In the Lean model the functions
are total by construction, which mirrors the fact that no exception can
escape the Python wrapper.) -/
theorem c10_getById_total :
    (∀ (db : DB) (cid : String), objectIdNorm cid = none →
      get_comment_by_id db cid = none) ∧
    (∀ (db : DB) (cid oid : String), objectIdNorm cid = some oid →
      db.comments.find? (fun c => c.id == oid) = none →
      get_comment_by_id db cid = none) ∧
    (∀ (db : DB) (cid oid : String) (c : StoredComment),
      objectIdNorm cid = some oid →
      db.comments.find? (fun c' => c'.id == oid) = some c →
      objectIdNorm c.author_id = none →
      get_comment_by_id db cid = none) ∧
    (∀ (db : DB) (pid : String), objectIdNorm pid = none →
      get_post_by_id db pid = none) ∧
    (∀ (db : DB) (pid oid : String), objectIdNorm pid = some oid →
      db.posts.find? (fun p => p.id == oid) = none →
      get_post_by_id db pid = none) ∧
    (∀ (db : DB) (pid oid : String) (p : StoredPost),
      objectIdNorm pid = some oid →
      db.posts.find? (fun q => q.id == oid) = some p →
      objectIdNorm p.author_id = none →
      get_post_by_id db pid = none) := by
  refine ⟨?_, ?_, ?_, ?_, ?_, ?_⟩
  · intro db cid h
    simp [get_comment_by_id, get_comment_by_id_body, h]
  · intro db cid oid h hfind
    simp [get_comment_by_id, get_comment_by_id_body, h, hfind]
  · intro db cid oid c h hfind ha
    simp [get_comment_by_id, get_comment_by_id_body, h, hfind, lookupAuthor, ha]
  · intro db pid h
    simp [get_post_by_id, get_post_by_id_body, h]
  · intro db pid oid h hfind
    simp [get_post_by_id, get_post_by_id_body, h, hfind]
  · intro db pid oid p h hfind ha
    simp [get_post_by_id, get_post_by_id_body, h, hfind, lookupAuthor, ha]

/-- Witness for `c10_getById_total` on an empty database and a string that is
not a well-formed object id. -/
theorem c10_getById_total_witness :
    objectIdNorm "not-an-object-id" = none ∧
    get_comment_by_id ⟨[], [], []⟩ "not-an-object-id" = none ∧
    get_post_by_id ⟨[], [], []⟩ "not-an-object-id" = none :=
  ⟨by decide,
   c10_getById_total.1 ⟨[], [], []⟩ "not-an-object-id" (by decide),
   c10_getById_total.2.2.2.1 ⟨[], [], []⟩ "not-an-object-id" (by decide)⟩

/-! ### Descendant-relation lemmas -/

theorem descP_mono {cs cs' : List StoredComment} {rootId : String}
    (hsub : ∀ x ∈ cs', x ∈ cs) {d : StoredComment} :
    DescP cs' rootId d → DescP cs rootId d := by
  intro h
  induction h with
  | parent hp => exact .parent hp
  | ancestor p hpm hpar _ ih => exact .ancestor p (hsub p hpm) hpar ih

theorem descN_mono {cs cs' : List StoredComment} {rootId : String}
    (hsub : ∀ x ∈ cs', x ∈ cs) {d : StoredComment} {n : Nat} :
    DescN cs' rootId d n → DescN cs rootId d n := by
  intro h
  induction h with
  | parent hp => exact .parent hp
  | ancestor p hpm hpar _ ih => exact .ancestor p (hsub p hpm) hpar ih

/-- Concatenate a descendant chain `d → mc` with a chain `mc → rootId`. -/
theorem descP_append {cs : List StoredComment} {rootId : String}
    {mc d : StoredComment} (hmc : mc ∈ cs) (h1 : DescP cs mc.id d)
    (h2 : DescP cs rootId mc) : DescP cs rootId d := by
  induction h1 with
  | parent hp => exact .ancestor mc hmc hp h2
  | ancestor p hpm hpar _ ih => exact .ancestor p hpm hpar ih

theorem descN_of_descP {cs : List StoredComment} {rootId : String}
    {d : StoredComment} (h : DescP cs rootId d) : ∃ n, DescN cs rootId d n := by
  induction h with
  | parent hp => exact ⟨1, .parent hp⟩
  | ancestor p hpm hpar _ ih =>
    obtain ⟨n, hn⟩ := ih
    exact ⟨n + 1, .ancestor p hpm hpar hn⟩

/-- Extend a chain `d → c` by the edge `c → pid` at the far end. -/
theorem descN_extend {cs : List StoredComment} {pid : String} {c : StoredComment}
    (hc : c ∈ cs) (hcp : c.parent_id = some pid) {d : StoredComment} {n : Nat}
    (h : DescN cs c.id d n) : DescN cs pid d (n + 1) := by
  induction h with
  | parent hp => exact .ancestor c hc hp (.parent hcp)
  | ancestor p hpm hpar _ ih => exact .ancestor p hpm hpar ih

/-- Under the creation invariant, chain length is bounded by the depth. -/
theorem descN_le_depth {cs : List StoredComment} {B : Nat} {depth : String → Nat}
    (hdep : DepthOK cs B depth) {rootId : String} {d : StoredComment} {n : Nat}
    (h : DescN cs rootId d n) : d ∈ cs → n ≤ depth d.id := by
  induction h with
  | @parent d hp =>
    intro hd
    obtain ⟨_, hpc⟩ := hdep d hd
    obtain ⟨p, _, _, hlt⟩ := hpc _ hp
    omega
  | @ancestor d p n hpm hpar hprev ih =>
    intro hd
    have h1 := ih hpm
    obtain ⟨_, hpc⟩ := hdep d hd
    obtain ⟨q, _, _, hlt⟩ := hpc _ hpar
    omega

/-- Under the creation invariant, a descendant's root is present and strictly
shallower. -/
theorem descP_depth_lt {cs : List StoredComment} {B : Nat} {depth : String → Nat}
    (hdep : DepthOK cs B depth) {rootId : String} {d : StoredComment}
    (h : DescP cs rootId d) : d ∈ cs →
      ∃ r, r ∈ cs ∧ r.id = rootId ∧ depth rootId < depth d.id := by
  induction h with
  | @parent d hp =>
    intro hd
    obtain ⟨_, hpc⟩ := hdep d hd
    obtain ⟨p, hpm, hpid, hlt⟩ := hpc _ hp
    exact ⟨p, hpm, hpid, hlt⟩
  | @ancestor d p hpm hpar hprev ih =>
    intro hd
    obtain ⟨r, hr, hrid, hlt⟩ := ih hpm
    obtain ⟨_, hpc⟩ := hdep d hd
    obtain ⟨q, _, _, hlt2⟩ := hpc _ hpar
    exact ⟨r, hr, hrid, by omega⟩

/-- No comment is its own strict descendant. -/
theorem descP_not_self {cs : List StoredComment} {B : Nat} {depth : String → Nat}
    (hdep : DepthOK cs B depth) {d : StoredComment} (hd : d ∈ cs) :
    ¬ DescP cs d.id d := by
  intro h
  obtain ⟨r, _, _, hlt⟩ := descP_depth_lt hdep h hd
  omega

/-! ### Id-uniqueness helpers -/

theorem nodupIds_sublist {cs cs' : List StoredComment} (hsub : cs'.Sublist cs)
    (hnd : nodupIds cs) : nodupIds cs' := by
  unfold nodupIds at hnd ⊢
  exact (hsub.map (fun x => x.id)).nodup hnd

theorem eq_of_mem_of_id_eq {cs : List StoredComment} (hnd : nodupIds cs)
    {a b : StoredComment} (ha : a ∈ cs) (hb : b ∈ cs) (hid : a.id = b.id) :
    a = b :=
  List.inj_on_of_nodup_map hnd ha hb hid

theorem find?_id_of_mem {cs : List StoredComment} (hnd : nodupIds cs)
    {c : StoredComment} (hc : c ∈ cs) :
    cs.find? (fun x => x.id == c.id) = some c := by
  cases hf : cs.find? (fun x => x.id == c.id) with
  | none =>
    exfalso
    have := List.find?_eq_none.1 hf c hc
    simp at this
  | some x =>
    have hx : x.id = c.id := by simpa using List.find?_some hf
    have hmemx := List.mem_of_find?_eq_some hf
    rw [eq_of_mem_of_id_eq hnd hmemx hc hx]

theorem mem_eraseP_of_nodupIds {i : String} {d : StoredComment} :
    ∀ {l : List StoredComment}, nodupIds l →
      (d ∈ l.eraseP (fun x => x.id == i) ↔ d ∈ l ∧ d.id ≠ i) := by
  intro l
  induction l with
  | nil => intro _; simp
  | cons x xs ih =>
    intro hnd
    rw [nodupIds, List.map_cons, List.nodup_cons] at hnd
    obtain ⟨hx1, hx2⟩ := hnd
    by_cases hx : x.id = i
    · rw [List.eraseP_cons_of_pos (by simp [hx])]
      constructor
      · intro hd
        refine ⟨List.mem_cons.2 (Or.inr hd), ?_⟩
        intro hdi
        apply hx1
        have : d.id ∈ xs.map (fun y => y.id) := List.mem_map_of_mem _ hd
        rwa [hdi, ← hx] at this
      · rintro ⟨hd, hdi⟩
        rcases List.mem_cons.1 hd with rfl | hd'
        · exact absurd hx hdi
        · exact hd'
    · rw [List.eraseP_cons_of_neg (by simp [hx])]
      constructor
      · intro hd
        rcases List.mem_cons.1 hd with rfl | hd'
        · exact ⟨List.mem_cons.2 (Or.inl rfl), hx⟩
        · obtain ⟨h1, h2⟩ := (ih hx2).1 hd'
          exact ⟨List.mem_cons.2 (Or.inr h1), h2⟩
      · rintro ⟨hd, hdi⟩
        rcases List.mem_cons.1 hd with rfl | hd'
        · exact List.mem_cons.2 (Or.inl rfl)
        · exact List.mem_cons.2 (Or.inr ((ih hx2).2 ⟨hd', hdi⟩))

theorem countP_id_eq_one {c : StoredComment} :
    ∀ {cs : List StoredComment}, nodupIds cs → c ∈ cs →
      cs.countP (fun d => d.id == c.id) = 1 := by
  intro cs
  induction cs with
  | nil => intro _ hc; simp at hc
  | cons x xs ih =>
    intro hnd hc
    rw [nodupIds, List.map_cons, List.nodup_cons] at hnd
    obtain ⟨hx1, hx2⟩ := hnd
    rcases List.mem_cons.1 hc with rfl | hc'
    · rw [List.countP_cons_of_pos _ _ (by simp)]
      have : xs.countP (fun d => d.id == c.id) = 0 := by
        rw [List.countP_eq_zero]
        intro d hd
        simp only [beq_iff_eq]
        intro hdi
        exact hx1 (hdi ▸ List.mem_map_of_mem _ hd)
      omega
    · rw [List.countP_cons_of_neg _ _ (by
        simp only [beq_iff_eq]
        intro hxi
        exact hx1 (hxi ▸ List.mem_map_of_mem _ hc'))]
      exact ih hx2 hc'

theorem countP_or_disjoint {α : Type} {p q : α → Bool} :
    ∀ {l : List α}, (∀ a ∈ l, ¬(p a = true ∧ q a = true)) →
      l.countP (fun a => p a || q a) = l.countP p + l.countP q := by
  intro l
  induction l with
  | nil => intro _; simp
  | cons x xs ih =>
    intro h
    have hx := h x (List.mem_cons.2 (Or.inl rfl))
    have hxs := ih fun a ha => h a (List.mem_cons.2 (Or.inr ha))
    cases hp : p x with
    | true =>
      cases hq : q x with
      | true => exact absurd ⟨hp, hq⟩ hx
      | false =>
        rw [List.countP_cons_of_pos _ _ (by simp [hp]),
          List.countP_cons_of_pos _ _ hp, List.countP_cons_of_neg _ _ (by simp [hq]),
          hxs]
        omega
    | false =>
      cases hq : q x with
      | true =>
        rw [List.countP_cons_of_pos _ _ (by simp [hp, hq]),
          List.countP_cons_of_neg _ _ (by simp [hp]),
          List.countP_cons_of_pos _ _ hq, hxs]
        omega
      | false =>
        rw [List.countP_cons_of_neg _ _ (by simp [hp, hq]),
          List.countP_cons_of_neg _ _ (by simp [hp]),
          List.countP_cons_of_neg _ _ (by simp [hq]), hxs]

/-- A sublist of a duplicate-free list is recovered by filtering on
membership. -/
theorem filter_mem_eq_of_sublist {α : Type} [DecidableEq α]
    {l' l : List α} (hsub : l'.Sublist l) (hnd : l.Nodup) :
    l.filter (fun x => decide (x ∈ l')) = l' := by
  induction hsub with
  | slnil => simp
  | @cons l₁ l₂ a hsub ih =>
    rw [List.nodup_cons] at hnd
    have ha : a ∉ l₁ := fun hmem => hnd.1 (hsub.subset hmem)
    rw [List.filter_cons_of_neg (by simpa using ha)]
    exact ih hnd.2
  | @cons₂ l₁ l₂ a hsub ih =>
    rw [List.nodup_cons] at hnd
    rw [List.filter_cons_of_pos (by simp)]
    have : l₂.filter (fun x => decide (x ∈ a :: l₁)) =
        l₂.filter (fun x => decide (x ∈ l₁)) := by
      apply List.filter_congr
      intro x hx
      have hxa : x ≠ a := fun he => hnd.1 (he ▸ hx)
      simp [List.mem_cons, hxa]
    rw [this, ih hnd.2]

/-! ### Ancestor-chain soundness and completeness -/

theorem chain_sound {cs : List StoredComment} {rootId : String} :
    ∀ fuel (d : StoredComment), rootId ∈ chainAux fuel cs d.parent_id →
      DescP cs rootId d := by
  intro fuel
  induction fuel with
  | zero => intro d h; simp [chainAux] at h
  | succ fuel ih =>
    intro d h
    cases hp : d.parent_id with
    | none => rw [hp] at h; simp [chainAux] at h
    | some q =>
      rw [hp] at h
      simp only [chainAux] at h
      rcases List.mem_cons.1 h with rfl | htail
      · exact .parent hp
      · cases hf : cs.find? (fun c => c.id == q) with
        | none => rw [hf] at htail; simp at htail
        | some p =>
          rw [hf] at htail
          have hpid : p.id = q := by simpa using List.find?_some hf
          exact .ancestor p (List.mem_of_find?_eq_some hf) (by rw [hp, hpid])
            (ih p htail)

theorem chain_complete {cs : List StoredComment} {B : Nat} {depth : String → Nat}
    (hnd : nodupIds cs) (hdep : DepthOK cs B depth) {rootId : String}
    {d : StoredComment} (h : DescP cs rootId d) :
    d ∈ cs → ∀ fuel, depth d.id < fuel → rootId ∈ chainAux fuel cs d.parent_id := by
  induction h with
  | parent hp =>
    intro _ fuel hfuel
    cases fuel with
    | zero => omega
    | succ fuel => rw [hp]; simp [chainAux]
  | @ancestor d p hpm hpar hprev ih =>
    intro hd fuel hfuel
    obtain ⟨_, hpc⟩ := hdep d hd
    obtain ⟨p', _, _, hplt⟩ := hpc _ hpar
    cases fuel with
    | zero => omega
    | succ fuel =>
      rw [hpar]
      simp only [chainAux]
      rw [show cs.find? (fun c => c.id == p.id) = some p from find?_id_of_mem hnd hpm]
      exact List.mem_cons.2 (Or.inr (ih hpm fuel (by omega)))

/-- The executable descendant test agrees with the declarative relation on
stores satisfying the creation invariant. -/
theorem isDescB_iff {cs : List StoredComment} {B : Nat} {depth : String → Nat}
    (hnd : nodupIds cs) (hdep : DepthOK cs B depth) (hB : B ≤ cs.length)
    {rootId : String} {d : StoredComment} (hd : d ∈ cs) :
    isDescB cs rootId d = true ↔ DescP cs rootId d := by
  constructor
  · intro h
    rw [isDescB, decide_eq_true_eq] at h
    exact chain_sound _ d h
  · intro h
    rw [isDescB, decide_eq_true_eq]
    refine chain_complete hnd hdep h hd _ ?_
    obtain ⟨hb, _⟩ := hdep d hd
    omega

/-! ### Unfolding descendants from the top and subtree separation -/

/-- A comment is a descendant of `pid` exactly when it is one of `pid`'s
direct children or a descendant of one of them. -/
theorem descP_top_unfold {cs : List StoredComment} (hnd : nodupIds cs)
    {pid : String} {d : StoredComment} (hd : d ∈ cs) :
    DescP cs pid d ↔
      ∃ c ∈ cs.filter (fun x => x.parent_id == some pid),
        (d.id = c.id ∨ DescP cs c.id d) := by
  constructor
  · intro h
    revert hd
    induction h with
    | @parent d hp =>
      intro hd
      exact ⟨d, List.mem_filter.2 ⟨hd, by simp [hp]⟩, Or.inl rfl⟩
    | @ancestor d p hpm hpar hprev ih =>
      intro _
      obtain ⟨c, hcf, hcase⟩ := ih hpm
      rcases hcase with hpc | hdesc
      · exact ⟨c, hcf, Or.inr (.parent (by rw [hpar, hpc]))⟩
      · exact ⟨c, hcf, Or.inr (.ancestor p hpm hpar hdesc)⟩
  · rintro ⟨c, hcf, hcase⟩
    obtain ⟨hcm, hcp⟩ := List.mem_filter.1 hcf
    simp only [beq_iff_eq] at hcp
    rcases hcase with hid | hdesc
    · have : d = c := eq_of_mem_of_id_eq hnd hd hcm hid
      subst this
      exact .parent hcp
    · exact descP_append hcm hdesc (.parent hcp)

/-- Two ancestors of the same comment are comparable: equal, or one is a
descendant of the other. -/
theorem descP_comparable {cs : List StoredComment} (hnd : nodupIds cs)
    {x y : String} {d : StoredComment} (h1 : DescP cs x d) (h2 : DescP cs y d) :
    x = y ∨ (∃ xc, xc ∈ cs ∧ xc.id = x ∧ DescP cs y xc) ∨
      (∃ yc, yc ∈ cs ∧ yc.id = y ∧ DescP cs x yc) := by
  induction h1 with
  | @parent d hp =>
    cases h2 with
    | parent hp2 =>
      left
      rw [hp] at hp2
      exact Option.some.inj hp2
    | ancestor p' hpm2 hpar2 hprev2 =>
      right; left
      refine ⟨p', hpm2, ?_, hprev2⟩
      rw [hpar2] at hp
      exact Option.some.inj hp
  | @ancestor d p hpm hpar hprev ih =>
    cases h2 with
    | parent hp2 =>
      right; right
      refine ⟨p, hpm, ?_, hprev⟩
      rw [hpar] at hp2
      exact Option.some.inj hp2
    | ancestor p' hpm2 hpar2 hprev2 =>
      have hpp : p = p' := by
        apply eq_of_mem_of_id_eq hnd hpm hpm2
        rw [hpar] at hpar2
        exact Option.some.inj hpar2
      subst hpp
      exact ih hprev2

/-- Two distinct children of the same parent have disjoint closed subtrees. -/
theorem subtree_disjoint {cs : List StoredComment} {B : Nat} {depth : String → Nat}
    (hnd : nodupIds cs) (hdep : DepthOK cs B depth) {pid : String}
    {c c' : StoredComment} (hc : c ∈ cs) (hc' : c' ∈ cs) (hne : c.id ≠ c'.id)
    (hpc : c.parent_id = some pid) (hpc' : c'.parent_id = some pid)
    {d : StoredComment} (hd : d ∈ cs) :
    ¬((d.id = c.id ∨ DescP cs c.id d) ∧ (d.id = c'.id ∨ DescP cs c'.id d)) := by
  have key : ∀ {a b : StoredComment}, a ∈ cs → b ∈ cs → a.parent_id = some pid →
      b.parent_id = some pid → ¬ DescP cs b.id a := by
    intro a b ha hb hpa hpb hdesc
    cases hdesc with
    | parent hp =>
      -- a.parent = some b.id and a.parent = some pid, so b.id = pid,
      -- making b its own parent: impossible by depth
      rw [hpa] at hp
      have hbid : pid = b.id := Option.some.inj hp
      obtain ⟨_, hpcb⟩ := hdep b hb
      obtain ⟨q, _, _, hlt⟩ := hpcb _ (by rw [hpb, hbid])
      omega
    | ancestor q hqm hqpar hqprev =>
      -- a.parent = some q.id = some pid, so q.id = pid and b.id is deeper
      -- than q, i.e. depth b.id < depth q.id = depth pid, while
      -- b.parent = pid gives depth pid < depth b.id
      rw [hpa] at hqpar
      have hqid : pid = q.id := Option.some.inj hqpar
      obtain ⟨r, _, hrid, hlt⟩ := descP_depth_lt hdep hqprev hqm
      obtain ⟨_, hpcb⟩ := hdep b hb
      obtain ⟨q', _, _, hlt2⟩ := hpcb _ hpb
      rw [← hqid] at hlt
      omega
  rintro ⟨hcase1, hcase2⟩
  rcases hcase1 with hid1 | hdesc1 <;> rcases hcase2 with hid2 | hdesc2
  · exact hne (hid1 ▸ hid2 ▸ rfl)
  · have : d = c := eq_of_mem_of_id_eq hnd hd hc hid1
    subst this
    exact key hc hc' hpc hpc' hdesc2
  · have : d = c' := eq_of_mem_of_id_eq hnd hd hc' hid2
    subst this
    exact key hc' hc hpc' hpc hdesc1
  · rcases descP_comparable hnd hdesc1 hdesc2 with heq | hcase | hcase
    · exact hne heq
    · obtain ⟨xc, hxcm, hxid, hxdesc⟩ := hcase
      have : xc = c := eq_of_mem_of_id_eq hnd hxcm hc hxid
      subst this
      exact key hc hc' hpc hpc' hxdesc
    · obtain ⟨yc, hycm, hyid, hydesc⟩ := hcase
      have : yc = c' := eq_of_mem_of_id_eq hnd hycm hc' hyid
      subst this
      exact key hc' hc hpc' hpc hydesc

/-- `RemovedBy` is closed downward: a child of a removed comment is removed. -/
theorem removedBy_child {cs done : List StoredComment} {p d : StoredComment}
    (hpm : p ∈ cs) (hpar : d.parent_id = some p.id)
    (h : RemovedBy cs done p) : RemovedBy cs done d := by
  obtain ⟨c', hc', hcase⟩ := h
  rcases hcase with hid | hdesc
  · exact ⟨c', hc', Or.inr (.parent (by rw [hpar, hid]))⟩
  · exact ⟨c', hc', Or.inr (descP_append hpm (.parent hpar) hdesc)⟩

/-- A chain that exists in the full store and starts at a surviving comment
also exists in the partially deleted store, because deletion removes whole
subtrees. -/
theorem descP_restrict {cs acc done : List StoredComment} {cId : String}
    (hsub : ∀ x ∈ acc, x ∈ cs)
    (hchar : ∀ x ∈ cs, (x ∈ acc ↔ ¬ RemovedBy cs done x)) {d : StoredComment}
    (hd : d ∈ acc) (h : DescP cs cId d) : DescP acc cId d := by
  revert hd
  induction h with
  | parent hp => intro _; exact .parent hp
  | @ancestor d p hpm hpar hprev ih =>
    intro hd
    have hpacc : p ∈ acc := by
      rw [hchar p hpm]
      intro hrem
      have hdrem : RemovedBy cs done d := removedBy_child hpm hpar hrem
      exact ((hchar d (hsub d hd)).1 hd) hdrem
    exact .ancestor p hpacc hpar (ih hpacc)

/-! ### Characterization of the cascading delete -/

/-- Membership in `RemovedBy` over an extended done-list. -/
theorem removedBy_append_singleton {cs done : List StoredComment}
    {c x : StoredComment} :
    RemovedBy cs (done ++ [c]) x ↔
      RemovedBy cs done x ∨ (x.id = c.id ∨ DescP cs c.id x) := by
  constructor
  · rintro ⟨c', hc', hcase⟩
    rcases List.mem_append.1 hc' with h | h
    · exact Or.inl ⟨c', h, hcase⟩
    · rw [List.mem_singleton] at h
      subst h
      exact Or.inr hcase
  · rintro (⟨c', hc', hcase⟩ | hcase)
    · exact ⟨c', List.mem_append.2 (Or.inl hc'), hcase⟩
    · exact ⟨c, List.mem_append.2 (Or.inr (List.mem_singleton.2 rfl)), hcase⟩

/-- The loop of `delete_comment_replies`: processing the remaining worklist
`l` removes exactly the closed subtrees of the children processed so far plus
those of `l`. -/
theorem deleteLoop_spec {B : Nat} {depth : String → Nat} (fuel : Nat)
    (ihAux : ∀ (cs' : List StoredComment) (pid' : String),
      nodupIds cs' → DepthOK cs' B depth →
      (∀ (d : StoredComment) (n : Nat), d ∈ cs' → DescN cs' pid' d n → n < fuel) →
      ∃ out, deleteRepliesAux fuel cs' pid' = .ok out ∧ out.Sublist cs' ∧
        (∀ d ∈ cs', (d ∈ out ↔ ¬ DescP cs' pid' d)))
    {cs : List StoredComment} {pid : String}
    (hnd : nodupIds cs) (hdep : DepthOK cs B depth)
    (HF : ∀ (d : StoredComment) (n : Nat), d ∈ cs → DescN cs pid d n → n < fuel + 1) :
    ∀ (l done acc : List StoredComment),
      done ++ l = cs.filter (fun c => c.parent_id == some pid) →
      acc.Sublist cs →
      DepthOK acc B depth →
      (∀ x ∈ cs, (x ∈ acc ↔ ¬ RemovedBy cs done x)) →
      ∃ out, deleteLoopF (deleteRepliesAux fuel) acc l = .ok out ∧
        out.Sublist cs ∧
        (∀ x ∈ cs, (x ∈ out ↔ ¬ RemovedBy cs (done ++ l) x)) := by
  intro l
  induction l with
  | nil =>
    intro done acc _ hsubacc _ hmemchar
    refine ⟨acc, rfl, hsubacc, ?_⟩
    simpa using hmemchar
  | cons c rest ih =>
    intro done acc hsplit hsubacc hdepacc hmemchar
    have hcch : c ∈ cs.filter (fun x => x.parent_id == some pid) := by
      rw [← hsplit]
      exact List.mem_append.2 (Or.inr (List.mem_cons.2 (Or.inl rfl)))
    obtain ⟨hcm, hcparb⟩ := List.mem_filter.1 hcch
    have hcpar : c.parent_id = some pid := by simpa using hcparb
    have hdone_sub : ∀ y ∈ done, y ∈ cs := by
      intro y hy
      have : y ∈ cs.filter (fun x => x.parent_id == some pid) := by
        rw [← hsplit]
        exact List.mem_append.2 (Or.inl hy)
      exact (List.mem_filter.1 this).1
    have hndacc := nodupIds_sublist hsubacc hnd
    have haccsub : ∀ x ∈ acc, x ∈ cs := fun x hx => hsubacc.subset hx
    -- descendant chains below c are one step shorter than below pid
    have HFc : ∀ (d : StoredComment) (n : Nat), d ∈ acc → DescN acc c.id d n →
        n < fuel := by
      intro d n hdacc hdn
      have h1 : DescN cs c.id d n := descN_mono haccsub hdn
      have h2 : DescN cs pid d (n + 1) := descN_extend hcm hcpar h1
      have := HF d (n + 1) (haccsub d hdacc) h2
      omega
    obtain ⟨out1, hout1eq, hout1sub, hout1mem⟩ := ihAux acc c.id hndacc hdepacc HFc
    have hndout1 := nodupIds_sublist hout1sub hndacc
    -- the new accumulator after deleting c's subtree and then c itself
    have hmem_out1 : ∀ x ∈ cs, (x ∈ out1 ↔ x ∈ acc ∧ ¬ DescP cs c.id x) := by
      intro x hx
      constructor
      · intro hxo
        have hxa : x ∈ acc := hout1sub.subset hxo
        refine ⟨hxa, ?_⟩
        intro hdesc
        exact ((hout1mem x hxa).1 hxo) (descP_restrict haccsub hmemchar hxa hdesc)
      · rintro ⟨hxa, hdesc⟩
        exact (hout1mem x hxa).2 fun hacc => hdesc (descP_mono haccsub hacc)
    have hmem_acc' : ∀ x ∈ cs,
        (x ∈ out1.eraseP (fun y => y.id == c.id) ↔
          ¬ RemovedBy cs (done ++ [c]) x) := by
      intro x hx
      rw [mem_eraseP_of_nodupIds hndout1, hmem_out1 x hx, hmemchar x hx,
        removedBy_append_singleton]
      constructor
      · rintro ⟨⟨hnr, hnd2⟩, hne⟩
        rintro (h | h | h)
        · exact hnr h
        · exact hne h
        · exact hnd2 h
      · intro h
        refine ⟨⟨fun hr => h (Or.inl hr), fun hd2 => h (Or.inr (Or.inr hd2))⟩, ?_⟩
        intro hid
        exact h (Or.inr (Or.inl hid))
    have hsub_acc' : (out1.eraseP (fun y => y.id == c.id)).Sublist cs :=
      (List.eraseP_sublist out1).trans (hout1sub.trans hsubacc)
    have hdep_acc' : DepthOK (out1.eraseP (fun y => y.id == c.id)) B depth := by
      intro y hy
      have hycs : y ∈ cs := hsub_acc'.subset hy
      obtain ⟨hyB, hypc⟩ := hdep y hycs
      refine ⟨hyB, ?_⟩
      intro pid' hpid'
      obtain ⟨p, hpm, hpid, hlt⟩ := hypc pid' hpid'
      refine ⟨p, ?_, hpid, hlt⟩
      rw [hmem_acc' p hpm]
      intro hrem
      have : RemovedBy cs (done ++ [c]) y :=
        removedBy_child hpm (by rw [hpid]; exact hpid') hrem
      exact ((hmem_acc' y hycs).1 hy) this
    have hsplit' : (done ++ [c]) ++ rest =
        cs.filter (fun x => x.parent_id == some pid) := by
      rw [← hsplit, List.append_assoc]
      rfl
    obtain ⟨out, houteq, houtsub, houtmem⟩ :=
      ih (done ++ [c]) (out1.eraseP (fun y => y.id == c.id)) hsplit' hsub_acc'
        hdep_acc' hmem_acc'
    refine ⟨out, ?_, houtsub, ?_⟩
    · simp only [deleteLoopF]
      rw [hout1eq]
      exact houteq
    · intro x hx
      rw [houtmem x hx]
      constructor
      · intro h hrem
        apply h
        obtain ⟨c', hc', hcase⟩ := hrem
        refine ⟨c', ?_, hcase⟩
        rcases List.mem_append.1 hc' with h' | h'
        · exact List.mem_append.2 (Or.inl (List.mem_append.2 (Or.inl h')))
        · rcases List.mem_cons.1 h' with rfl | h''
          · exact List.mem_append.2 (Or.inl (List.mem_append.2
              (Or.inr (List.mem_singleton.2 rfl))))
          · exact List.mem_append.2 (Or.inr h'')
      · intro h hrem
        apply h
        obtain ⟨c', hc', hcase⟩ := hrem
        refine ⟨c', ?_, hcase⟩
        rcases List.mem_append.1 hc' with h' | h'
        · rcases List.mem_append.1 h' with h'' | h''
          · exact List.mem_append.2 (Or.inl h'')
          · rw [List.mem_singleton] at h''
            subst h''
            exact List.mem_append.2 (Or.inr (List.mem_cons.2 (Or.inl rfl)))
        · exact List.mem_append.2 (Or.inr (List.mem_cons.2 (Or.inr h')))

/-- Characterization of the recursive reply deletion: with enough fuel on a
well-formed store, it succeeds and removes exactly the strict descendants of
`pid`, preserving the order of the remaining comments. -/
theorem deleteRepliesAux_spec {B : Nat} {depth : String → Nat} :
    ∀ (fuel : Nat) (cs : List StoredComment) (pid : String),
      nodupIds cs → DepthOK cs B depth →
      (∀ (d : StoredComment) (n : Nat), d ∈ cs → DescN cs pid d n → n < fuel) →
      ∃ out, deleteRepliesAux fuel cs pid = .ok out ∧
        out.Sublist cs ∧
        (∀ d ∈ cs, (d ∈ out ↔ ¬ DescP cs pid d)) := by
  intro fuel
  induction fuel with
  | zero =>
    intro cs pid hnd hdep HF
    have hnochild : cs.filter (fun c => c.parent_id == some pid) = [] := by
      cases hch : cs.filter (fun c => c.parent_id == some pid) with
      | nil => rfl
      | cons c rest =>
        exfalso
        have : c ∈ cs.filter (fun x => x.parent_id == some pid) := by
          rw [hch]; exact List.mem_cons.2 (Or.inl rfl)
        obtain ⟨hcm, hcparb⟩ := List.mem_filter.1 this
        exact absurd (HF c 1 hcm (.parent (by simpa using hcparb))) (by omega)
    refine ⟨cs, ?_, List.Sublist.refl cs, ?_⟩
    · simp [deleteRepliesAux, hnochild]
    · intro d hd
      constructor
      · intro _ hdesc
        obtain ⟨n, hn⟩ := descN_of_descP hdesc
        exact absurd (HF d n hd hn) (by omega)
      · intro _; exact hd
  | succ fuel ih =>
    intro cs pid hnd hdep HF
    obtain ⟨out, houteq, houtsub, houtmem⟩ :=
      deleteLoop_spec fuel ih hnd hdep HF
        (cs.filter (fun c => c.parent_id == some pid)) [] cs rfl
        (List.Sublist.refl cs) hdep
        (by
          intro x hx
          simp [RemovedBy, hx])
    refine ⟨out, ?_, houtsub, ?_⟩
    · simp only [deleteRepliesAux]
      exact houteq
    · intro d hd
      rw [houtmem d hd]
      simp only [List.nil_append]
      constructor
      · intro h hdesc
        exact h ((descP_top_unfold hnd hd).1 hdesc)
      · intro h hrem
        exact h ((descP_top_unfold hnd hd).2 hrem)

/-! ### The full specification of a successful `delete_comment` -/

/-- On a well-formed store, an authorized `delete_comment` on a stored
comment succeeds and removes exactly the comment and its strict descendants,
keeping everything else in order. -/
theorem delete_comment_ok_spec {cs : List StoredComment} {depth : String → Nat}
    (hnd : nodupIds cs) (hdep : DepthOK cs cs.length depth)
    (hids : ∀ x ∈ cs, isCanonicalOid x.id = true)
    {c : StoredComment} (hc : c ∈ cs) {author_id : Option String} {is_admin : Bool}
    (hauth : is_admin = true ∨ author_id = none ∨ author_id = some c.author_id) :
    ∃ out, delete_comment cs c.id author_id is_admin = (true, out) ∧
      out.Sublist cs ∧
      (∀ d ∈ cs, (d ∈ out ↔ ¬ (d.id = c.id ∨ DescP cs c.id d))) := by
  have HF : ∀ (d : StoredComment) (n : Nat), d ∈ cs → DescN cs c.id d n →
      n < cs.length + 1 := by
    intro d n hd hdn
    have h1 := descN_le_depth hdep hdn hd
    obtain ⟨hb, _⟩ := hdep d hd
    omega
  obtain ⟨out1, hout1eq, hout1sub, hout1mem⟩ :=
    deleteRepliesAux_spec (cs.length + 1) cs c.id hnd hdep HF
  have hcanon := objectIdNorm_canonical (hids c hc)
  have hfind := find?_id_of_mem hnd hc
  have hndout1 := nodupIds_sublist hout1sub hnd
  have hcout1 : c ∈ out1 := (hout1mem c hc).2 (descP_not_self hdep hc)
  have hauthb : (!is_admin && author_id.any (fun a => c.author_id != a)) = false := by
    rcases hauth with h | h | h
    · rw [h]; rfl
    · rw [h]; simp
    · rw [h]; simp
  have hany : out1.any (fun x => x.id == c.id) = true :=
    List.any_eq_true.2 ⟨c, hcout1, by simp⟩
  refine ⟨out1.eraseP (fun x => x.id == c.id), ?_, ?_, ?_⟩
  · simp only [delete_comment, hcanon, hfind, hauthb, Bool.false_eq_true, if_false]
    unfold delete_comment_replies
    rw [hout1eq]
    show ((out1.any fun x => x.id == c.id),
        List.eraseP (fun x => x.id == c.id) out1) =
      (true, List.eraseP (fun x => x.id == c.id) out1)
    rw [hany]
  · exact (List.eraseP_sublist _).trans hout1sub
  · intro d hd
    rw [mem_eraseP_of_nodupIds hndout1, hout1mem d hd]
    constructor
    · rintro ⟨hnd2, hne⟩ (hid | hdesc)
      · exact hne hid
      · exact hnd2 hdesc
    · intro h
      exact ⟨fun hdesc => h (Or.inr hdesc), fun hid => h (Or.inl hid)⟩

/-- Splitting a count over a predicate and its boolean negation. -/
theorem countP_not_add {α : Type} (p : α → Bool) (l : List α) :
    l.countP (fun a => !p a) + l.countP p = l.length := by
  induction l with
  | nil => rfl
  | cons a l ih =>
    cases h : p a with
    | true =>
      have h1 : (!p a) = false := by rw [h]; rfl
      rw [List.countP_cons, List.countP_cons, h1, h]
      simp only [List.length_cons]
      simp
      omega
    | false =>
      have h1 : (!p a) = true := by rw [h]; rfl
      rw [List.countP_cons, List.countP_cons, h1, h]
      simp only [List.length_cons]
      simp
      omega

/-! ### Claim C1: cascading delete -/

/-- Claim C1, confirmed.  On a store satisfying the creation invariant
(distinct canonical ids, parents present and acyclic — `hdep` with the
canonical size bound), an authorized delete of a stored comment `c` with `N`
transitive descendant replies succeeds and leaves a store that is exactly
`N + 1` comments smaller, and no remaining comment's ancestor chain contains
`c`'s id.  `N` is computed by the executable descendant test, and the final
conjunct ties that test to the declarative descendant relation. -/
theorem c1_cascading_delete {cs : List StoredComment} {depth : String → Nat}
    (hnd : nodupIds cs) (hdep : DepthOK cs cs.length depth)
    (hids : ∀ x ∈ cs, isCanonicalOid x.id = true)
    {c : StoredComment} (hc : c ∈ cs) {author_id : Option String} {is_admin : Bool}
    (hauth : is_admin = true ∨ author_id = none ∨ author_id = some c.author_id) :
    ∃ out, delete_comment cs c.id author_id is_admin = (true, out) ∧
      out.length + (cs.countP (fun d => isDescB cs c.id d) + 1) = cs.length ∧
      (∀ d ∈ out, ¬ DescP out c.id d) ∧
      (∀ d ∈ cs, (isDescB cs c.id d = true ↔ DescP cs c.id d)) := by
  obtain ⟨out, heq, hsub, hmem⟩ := delete_comment_ok_spec hnd hdep hids hc hauth
  have hbridge : ∀ d ∈ cs, (isDescB cs c.id d = true ↔ DescP cs c.id d) :=
    fun d hd => isDescB_iff hnd hdep (le_refl _) hd
  refine ⟨out, heq, ?_, ?_, hbridge⟩
  · have hndv : cs.Nodup := List.Nodup.of_map _ hnd
    have hfil : cs.filter (fun x => decide (x ∈ out)) = out :=
      filter_mem_eq_of_sublist hsub hndv
    have hlen : out.length = cs.countP (fun x => decide (x ∈ out)) := by
      rw [List.countP_eq_length_filter, hfil]
    have hpt : ∀ x ∈ cs,
        (decide (x ∈ out)) = !(x.id == c.id || isDescB cs c.id x) := by
      intro x hx
      by_cases hxo : x ∈ out
      · have hno := (hmem x hx).1 hxo
        have h1 : (x.id == c.id) = false := by
          simp only [beq_eq_false_iff_ne, ne_eq]
          exact fun h => hno (Or.inl h)
        have h2 : isDescB cs c.id x = false := by
          cases hbv : isDescB cs c.id x with
          | true => exact absurd (Or.inr ((hbridge x hx).1 hbv)) hno
          | false => rfl
        simp [hxo, h1, h2]
      · have hrem : x.id = c.id ∨ DescP cs c.id x := by
          by_contra hcon
          exact hxo ((hmem x hx).2 hcon)
        have hor : (x.id == c.id || isDescB cs c.id x) = true := by
          rcases hrem with h | h
          · simp [h]
          · simp [(hbridge x hx).2 h]
        simp [hxo, hor]
    have hcount : cs.countP (fun x => decide (x ∈ out)) =
        cs.countP (fun x => !(x.id == c.id || isDescB cs c.id x)) :=
      List.countP_congr (fun a ha => by rw [hpt a ha])
    have hdisj : cs.countP (fun x => (x.id == c.id || isDescB cs c.id x)) =
        cs.countP (fun x => x.id == c.id) + cs.countP (fun x => isDescB cs c.id x) := by
      refine countP_or_disjoint ?_
      rintro a ha ⟨h1, h2⟩
      have ha1 : a.id = c.id := by simpa using h1
      have hac : a = c := eq_of_mem_of_id_eq hnd ha hc ha1
      subst hac
      exact descP_not_self hdep ha ((hbridge a ha).1 h2)
    have hone : cs.countP (fun x => x.id == c.id) = 1 := countP_id_eq_one hnd hc
    have hcompl : cs.countP (fun x => !(x.id == c.id || isDescB cs c.id x)) +
        cs.countP (fun x => (x.id == c.id || isDescB cs c.id x)) = cs.length :=
      countP_not_add _ _
    omega
  · intro d hdo hdesc
    have hdcs : d ∈ cs := hsub.subset hdo
    have : DescP cs c.id d := descP_mono (fun x hx => hsub.subset hx) hdesc
    exact ((hmem d hdcs).1 hdo) (Or.inr this)

/-- The two-comment store satisfies the acyclicity bound with the evident
depth function. -/
theorem c1pair_depthOK :
    DepthOK [c1Root, c1Reply] 2 (fun s => if s = c1Reply.id then 1 else 0) := by
  intro x hx
  rcases List.mem_cons.1 hx with rfl | hx'
  · refine ⟨by decide, ?_⟩
    intro pid hpid
    simp [c1Root] at hpid
  · rcases List.mem_cons.1 hx' with rfl | hx''
    · refine ⟨by decide, ?_⟩
      intro pid hpid
      have hpe : pid = "aaaaaaaaaaaaaaaaaaaaaaaa" := by
        have h2 : (some "aaaaaaaaaaaaaaaaaaaaaaaa" : Option String) = some pid := hpid
        exact (Option.some.inj h2).symm
      subst hpe
      exact ⟨c1Root, by decide, by decide, by decide⟩
    · simp at hx''

/-- Witness for `c1_cascading_delete`: an admin deletes the root of a
two-comment thread. -/
theorem c1_cascading_delete_witness :
    ∃ out, delete_comment [c1Root, c1Reply] c1Root.id none true = (true, out) ∧
      out.length +
        (([c1Root, c1Reply] : List StoredComment).countP
          (fun d => isDescB [c1Root, c1Reply] c1Root.id d) + 1) =
        ([c1Root, c1Reply] : List StoredComment).length ∧
      (∀ d ∈ out, ¬ DescP out c1Root.id d) ∧
      (∀ d ∈ ([c1Root, c1Reply] : List StoredComment),
        (isDescB [c1Root, c1Reply] c1Root.id d = true ↔
          DescP [c1Root, c1Reply] c1Root.id d)) :=
  @c1_cascading_delete [c1Root, c1Reply]
    (fun s => if s = c1Reply.id then 1 else 0) (by decide) c1pair_depthOK
    (by decide) c1Root (by decide) none true (Or.inl rfl)

/-! ### Claim C2: delete is not idempotent-successful -/

/-- Claim C2, counterexample.  Deleting the only comment of a one-comment
store succeeds; repeating the same call on the resulting store returns
`False` (the function's "not found" result), not success — contradicting
"calling delete twice in sequence yields (success, success)". -/
theorem c2_counterexample :
    (delete_comment [c1Root] c1Root.id none true).1 = true ∧
    (delete_comment (delete_comment [c1Root] c1Root.id none true).2
      c1Root.id none true).1 = false := by
  constructor
  · decide
  · decide

/-- Claim C2, amended.  A second delete of the same id is a no-op on storage
but reports *failure*, not success: `delete_comment` returns `False` when
the id is absent (and the route never even reaches it, responding 404 from
its own existence check).  Concretely: a delete on an absent id returns
`(False, unchanged store)`; the route returns 404 when the comment does not
resolve; and after a successful authorized delete, an immediately repeated
delete of the same id returns `False` and leaves the store unchanged. -/
theorem c2_delete_second_call_amended :
    (∀ (cs : List StoredComment) (comment_id : String) (author_id : Option String)
        (is_admin : Bool),
      (∀ oid, objectIdNorm comment_id = some oid →
        cs.find? (fun c => c.id == oid) = none) →
      delete_comment cs comment_id author_id is_admin = (false, cs)) ∧
    (∀ (db : DB) (user : CurrentUser) (comment_id : String),
      get_comment_by_id db comment_id = none →
      delete_comment_route db user comment_id = (.error .notFound, db)) ∧
    (∀ (cs : List StoredComment) (depth : String → Nat),
      nodupIds cs → DepthOK cs cs.length depth →
      (∀ x ∈ cs, isCanonicalOid x.id = true) →
      ∀ c ∈ cs, ∀ (author_id : Option String) (is_admin : Bool),
      (is_admin = true ∨ author_id = none ∨ author_id = some c.author_id) →
      ∀ (author_id' : Option String) (is_admin' : Bool),
      ∃ out, delete_comment cs c.id author_id is_admin = (true, out) ∧
        delete_comment out c.id author_id' is_admin' = (false, out)) := by
  refine ⟨?_, ?_, ?_⟩
  · intro cs comment_id author_id is_admin h
    cases hn : objectIdNorm comment_id with
    | none => simp [delete_comment, hn]
    | some oid => simp [delete_comment, hn, h oid hn]
  · intro db user comment_id h
    simp [delete_comment_route, h]
  · intro cs depth hnd hdep hids c hc author_id is_admin hauth author_id' is_admin'
    obtain ⟨out, heq, hsub, hmem⟩ := delete_comment_ok_spec hnd hdep hids hc hauth
    refine ⟨out, heq, ?_⟩
    have hcanon := objectIdNorm_canonical (hids c hc)
    have hfind : out.find? (fun x => x.id == c.id) = none := by
      rw [List.find?_eq_none]
      intro x hx
      simp only [beq_iff_eq]
      exact fun hid => ((hmem x (hsub.subset hx)).1 hx) (Or.inl hid)
    simp [delete_comment, hcanon, hfind]

/-- Witness for `c2_delete_second_call_amended` on the two-comment store. -/
theorem c2_delete_second_call_amended_witness :
    ∃ out, delete_comment [c1Root, c1Reply] c1Root.id none true = (true, out) ∧
      delete_comment out c1Root.id none true = (false, out) :=
  c2_delete_second_call_amended.2.2 [c1Root, c1Reply]
    (fun s => if s = c1Reply.id then 1 else 0)
    (by decide) c1pair_depthOK (by decide)
    c1Root (by decide) none true (Or.inl rfl) none true

/-- Claim C3: the claim is right about the intent and the store, but the code
has a bug.  For a caller who is neither the comment's author nor an admin,
`delete_comment` *constructs and raises* an `HTTPException(403)` — but that
exception is swallowed by the function's own blanket
`except Exception: return False`, so the crud call returns `False` with the
store untouched, and the route turns that into a 500
"Failed to delete comment" rather than the 403.  Concretely: bob (role
`user`) deleting alice's comment gets a server-error outcome, not a
forbidden one, and the comment and its reply remain in storage unchanged. -/
theorem c3_forbidden_delete_becomes_500 :
    delete_comment c3db.comments c1Root.id (some bobActor.id) false =
      (false, c3db.comments) ∧
    delete_comment_route c3db bobActor c1Root.id = (.error .serverError, c3db) ∧
    delete_comment_route c3db bobActor c1Root.id ≠ (.error .forbidden, c3db) ∧
    (delete_comment_route c3db bobActor c1Root.id).2.comments = [c1Root, c1Reply] := by
  have h2 : delete_comment_route c3db bobActor c1Root.id =
      (.error .serverError, c3db) := rfl
  refine ⟨by decide, h2, ?_, by decide⟩
  rw [h2]
  intro h
  have h3 := congrArg Prod.fst h
  simp at h3

/-! ### Reply-tree helpers for the listing claims -/

/-- Any descendant chain has length at least one. -/
theorem descN_one_le {cs : List StoredComment} {pid : String} {d : StoredComment}
    {n : Nat} (h : DescN cs pid d n) : 1 ≤ n := by
  cases h with
  | parent _ => omega
  | ancestor p hpm hpar hprev => omega

/-- On a store with canonical, distinct ids, refetching a stored comment
denormalizes it (the getter cannot fail and finds exactly that comment). -/
theorem get_comment_by_id_denorm {db : DB} (hnd : nodupIds db.comments)
    {c : StoredComment} (hc : c ∈ db.comments)
    (hid : isCanonicalOid c.id = true) (haid : isCanonicalOid c.author_id = true) :
    get_comment_by_id db c.id = some (denormComment db c) := by
  simp only [get_comment_by_id, get_comment_by_id_body, lookupAuthor,
    objectIdNorm_canonical hid, objectIdNorm_canonical haid,
    find?_id_of_mem hnd hc, denormComment]

/-- A `filterMap` every step of which succeeds is a `map`. -/
theorem filterMap_eq_map_of_some {α β : Type} {f : α → Option β} {g : α → β} :
    ∀ {l : List α}, (∀ x ∈ l, f x = some (g x)) → l.filterMap f = l.map g := by
  intro l
  induction l with
  | nil => intro _; rfl
  | cons a as ih =>
    intro h
    rw [List.filterMap_cons_some (h a (List.mem_cons_self a as)), List.map_cons,
      ih (fun x hx => h x (List.mem_cons_of_mem a hx))]

/-- Flattening a mapped forest is a flat map of flattened nodes. -/
theorem flattenForest_map_eq_flatMap {α : Type} (g : α → CommentNode) :
    ∀ (l : List α),
      flattenForest (l.map g) = l.flatMap (fun c => flattenNode (g c)) := by
  intro l
  induction l with
  | nil => simp [flattenForest]
  | cons a as ih =>
    rw [List.map_cons, List.flatMap_cons, ← ih]
    simp [flattenForest]

/-- The recursive reply fetch with enough fuel: the flattened result is
exactly the denormalization of the strict descendants of `pid`, out ids are
distinct, and every level is in ascending `created_at` order. -/
theorem getRepliesAux_spec {db : DB} {B : Nat} {depth : String → Nat}
    (hnd : nodupIds db.comments) (hdep : DepthOK db.comments B depth)
    (hids : ∀ x ∈ db.comments, isCanonicalOid x.id = true ∧
      isCanonicalOid x.author_id = true) :
    ∀ (fuel : Nat) (pid : String),
      (∀ (d : StoredComment) (n : Nat), d ∈ db.comments →
        DescN db.comments pid d n → n ≤ fuel) →
      (∀ o, o ∈ flattenForest (getRepliesAux fuel db pid) ↔
        ∃ c, c ∈ db.comments ∧ DescP db.comments pid c ∧
          o = denormComment db c) ∧
      ((flattenForest (getRepliesAux fuel db pid)).map (fun o => o.id)).Nodup ∧
      ForestSorted (getRepliesAux fuel db pid) := by
  intro fuel
  induction fuel with
  | zero =>
    intro pid HF
    have hflat : flattenForest (getRepliesAux 0 db pid) = [] := by
      simp [getRepliesAux, flattenForest]
    refine ⟨?_, by rw [hflat]; exact List.nodup_nil, ?_⟩
    · intro o
      rw [hflat]
      simp only [List.not_mem_nil, false_iff]
      rintro ⟨c, hcm, hdesc, _⟩
      obtain ⟨n, hn⟩ := descN_of_descP hdesc
      have h1 := descN_one_le hn
      have h2 := HF c n hcm hn
      omega
    · constructor
      · simp [getRepliesAux]
      · intro n hn
        simp [getRepliesAux] at hn
  | succ fuel ih =>
    intro pid HF
    have hdirect : ∀ c, c ∈ (db.comments.filter
        (fun x => x.parent_id == some pid)).insertionSort byCreatedAsc ↔
        (c ∈ db.comments ∧ c.parent_id = some pid) := by
      intro c
      rw [(List.perm_insertionSort byCreatedAsc _).mem_iff, List.mem_filter]
      simp
    have hdef : getRepliesAux (fuel + 1) db pid =
        ((db.comments.filter (fun c => c.parent_id == some pid)).insertionSort
          byCreatedAsc).map
          (fun c => (⟨denormComment db c, getRepliesAux fuel db c.id⟩ :
            CommentNode)) := by
      simp only [getRepliesAux]
      refine filterMap_eq_map_of_some ?_
      intro c hcdir
      obtain ⟨hcm, _⟩ := (hdirect c).1 hcdir
      rw [get_comment_by_id_denorm hnd hcm (hids c hcm).1 (hids c hcm).2]
      rfl
    have hchild : ∀ c, c ∈ db.comments → c.parent_id = some pid →
        (∀ o, o ∈ flattenForest (getRepliesAux fuel db c.id) ↔
          ∃ d, d ∈ db.comments ∧ DescP db.comments c.id d ∧
            o = denormComment db d) ∧
        ((flattenForest (getRepliesAux fuel db c.id)).map
          (fun o => o.id)).Nodup ∧
        ForestSorted (getRepliesAux fuel db c.id) := by
      intro c hcm hcp
      refine ih c.id ?_
      intro d n hdm hdn
      have := HF d (n + 1) hdm (descN_extend hcm hcp hdn)
      omega
    have hflatmem : ∀ o, o ∈ flattenForest (getRepliesAux (fuel + 1) db pid) ↔
        ∃ c, (c ∈ db.comments ∧ c.parent_id = some pid) ∧
          o ∈ flattenNode (⟨denormComment db c, getRepliesAux fuel db c.id⟩ :
            CommentNode) := by
      intro o
      rw [hdef, flattenForest_map_eq_flatMap, List.mem_flatMap]
      constructor
      · rintro ⟨c, hc, ho⟩
        exact ⟨c, (hdirect c).1 hc, ho⟩
      · rintro ⟨c, hc, ho⟩
        exact ⟨c, (hdirect c).2 hc, ho⟩
    refine ⟨?_, ?_, ?_⟩
    · intro o
      rw [hflatmem]
      constructor
      · rintro ⟨c, ⟨hcm, hcp⟩, ho⟩
        simp only [flattenNode, List.mem_cons] at ho
        rcases ho with rfl | ho
        · exact ⟨c, hcm, .parent hcp, rfl⟩
        · obtain ⟨d, hdm, hdesc, rfl⟩ := ((hchild c hcm hcp).1 o).1 ho
          exact ⟨d, hdm, descP_append hcm hdesc (.parent hcp), rfl⟩
      · rintro ⟨x, hx, hdesc, rfl⟩
        obtain ⟨c, hcf, hcase⟩ := (descP_top_unfold hnd hx).1 hdesc
        obtain ⟨hcm, hcpb⟩ := List.mem_filter.1 hcf
        have hcp : c.parent_id = some pid := by simpa using hcpb
        refine ⟨c, ⟨hcm, hcp⟩, ?_⟩
        simp only [flattenNode, List.mem_cons]
        rcases hcase with hid | hdesc2
        · left
          have hxc : x = c := eq_of_mem_of_id_eq hnd hx hcm hid
          rw [hxc]
        · right
          exact ((hchild c hcm hcp).1 _).2 ⟨x, hx, hdesc2, rfl⟩
    · rw [hdef, flattenForest_map_eq_flatMap, List.map_flatMap]
      rw [List.nodup_flatMap]
      have hunpack : ∀ (c : StoredComment), c ∈ db.comments →
          c.parent_id = some pid → ∀ i,
          i ∈ (flattenNode (⟨denormComment db c, getRepliesAux fuel db c.id⟩ :
              CommentNode)).map (fun o => o.id) →
          ∃ d, d ∈ db.comments ∧ (d.id = c.id ∨ DescP db.comments c.id d) ∧
            i = d.id := by
        intro c hcm hcp i hi
        simp only [flattenNode, List.map_cons, List.mem_cons] at hi
        rcases hi with rfl | hi
        · exact ⟨c, hcm, Or.inl rfl, rfl⟩
        · obtain ⟨o, ho, rfl⟩ := List.mem_map.1 hi
          obtain ⟨d, hdm, hdesc, rfl⟩ := (((hchild c hcm hcp).1 o)).1 ho
          exact ⟨d, hdm, Or.inr hdesc, rfl⟩
      refine ⟨?_, ?_⟩
      · intro c hcd
        obtain ⟨hcm, hcp⟩ := (hdirect c).1 hcd
        obtain ⟨ihm, ihnd, _⟩ := hchild c hcm hcp
        simp only [flattenNode, List.map_cons]
        rw [List.nodup_cons]
        constructor
        · intro hin
          obtain ⟨o, ho, hoid⟩ := List.mem_map.1 hin
          obtain ⟨d, hdm, hdesc, rfl⟩ := (ihm o).1 ho
          have hdi : d.id = c.id := hoid
          have hdc : d = c := eq_of_mem_of_id_eq hnd hdm hcm hdi
          subst hdc
          exact descP_not_self hdep hdm hdesc
        · exact ihnd
      · have hPne : ((db.comments.filter
            (fun x => x.parent_id == some pid)).insertionSort
              byCreatedAsc).Nodup :=
          ((List.perm_insertionSort byCreatedAsc _).nodup_iff).2
            ((List.Nodup.of_map _ hnd).filter _)
        refine List.Pairwise.imp_of_mem ?_ hPne
        intro a b ha hb hne
        obtain ⟨ham, hap⟩ := (hdirect a).1 ha
        obtain ⟨hbm, hbp⟩ := (hdirect b).1 hb
        have hidne : a.id ≠ b.id := fun h => hne (eq_of_mem_of_id_eq hnd ham hbm h)
        simp only [Function.onFun]
        rw [List.disjoint_left]
        intro i hia hib
        obtain ⟨d1, hd1m, hd1c, rfl⟩ := hunpack a ham hap i hia
        obtain ⟨d2, hd2m, hd2c, hd12⟩ := hunpack b hbm hbp d1.id hib
        have hdd : d2 = d1 := eq_of_mem_of_id_eq hnd hd2m hd1m hd12.symm
        subst hdd
        exact subtree_disjoint hnd hdep ham hbm hidne hap hbp hd2m ⟨hd1c, hd2c⟩
    · rw [hdef]
      constructor
      · rw [List.pairwise_map]
        have hs : List.Pairwise byCreatedAsc ((db.comments.filter
            (fun x => x.parent_id == some pid)).insertionSort byCreatedAsc) :=
          List.sorted_insertionSort byCreatedAsc _
        refine hs.imp ?_
        intro a b hab
        exact hab
      · intro n hn
        obtain ⟨c, hcd, rfl⟩ := List.mem_map.1 hn
        obtain ⟨hcm, hcp⟩ := (hdirect c).1 hcd
        obtain ⟨_, _, ihfs⟩ := hchild c hcm hcp
        exact NodeSorted.mk ihfs.1 (fun r hr => ihfs.2 r hr)

/-! ### Claim C5: the recursive reply fetch -/

/-- Claim C5, confirmed.  On a store satisfying the creation invariant,
flattening all nested reply fields of `get_comment_replies db rootId` yields
exactly the denormalizations of the comments whose transitive parent chain
contains `rootId` — each exactly once — and every level of the tree lists
its replies in ascending `created_at` order. -/
theorem c5_replies_flatten {db : DB} {depth : String → Nat}
    (hnd : nodupIds db.comments)
    (hdep : DepthOK db.comments db.comments.length depth)
    (hids : ∀ x ∈ db.comments, isCanonicalOid x.id = true ∧
      isCanonicalOid x.author_id = true)
    (rootId : String) :
    (∀ o, o ∈ flattenForest (get_comment_replies db rootId) ↔
      ∃ c, c ∈ db.comments ∧ DescP db.comments rootId c ∧
        o = denormComment db c) ∧
    ((flattenForest (get_comment_replies db rootId)).map
      (fun o => o.id)).Nodup ∧
    ForestSorted (get_comment_replies db rootId) := by
  unfold get_comment_replies
  refine getRepliesAux_spec hnd hdep hids _ rootId ?_
  intro d n hdm hdn
  have h1 := descN_le_depth hdep hdn hdm
  obtain ⟨hb, _⟩ := hdep d hdm
  omega

/-- Witness for `c5_replies_flatten` on the two-comment thread. -/
theorem c5_replies_flatten_witness :
    (∀ o, o ∈ flattenForest (get_comment_replies c3db "aaaaaaaaaaaaaaaaaaaaaaaa") ↔
      ∃ c, c ∈ c3db.comments ∧
        DescP c3db.comments "aaaaaaaaaaaaaaaaaaaaaaaa" c ∧
        o = denormComment c3db c) ∧
    ((flattenForest (get_comment_replies c3db "aaaaaaaaaaaaaaaaaaaaaaaa")).map
      (fun o => o.id)).Nodup ∧
    ForestSorted (get_comment_replies c3db "aaaaaaaaaaaaaaaaaaaaaaaa") :=
  @c5_replies_flatten c3db (fun s => if s = c1Reply.id then 1 else 0)
    (by decide) c1pair_depthOK (by decide) "aaaaaaaaaaaaaaaaaaaaaaaa"

/-! ### Claim C4: listing a post's comments -/

/-- Claim C4, counterexample.  With `include_replies = true` the reply of the
two-comment thread is returned as a top-level page item (first, because the
page stays sorted by `created_at` descending across roots and replies
alike): the claimed "no reply appears as a top-level item" fails. -/
theorem c4_counterexample :
    ((get_comments_by_post c3db "cccccccccccccccccccccccc" 50 0 true).map
      (fun n => n.out.parent_id) = [some "aaaaaaaaaaaaaaaaaaaaaaaa", none]) ∧
    ¬ (∀ n ∈ get_comments_by_post c3db "cccccccccccccccccccccccc" 50 0 true,
        n.out.parent_id = none) := by
  have h1 : ((get_comments_by_post c3db "cccccccccccccccccccccccc" 50 0 true).map
      (fun n => n.out.parent_id) = [some "aaaaaaaaaaaaaaaaaaaaaaaa", none]) := by
    decide
  refine ⟨h1, ?_⟩
  intro hall
  cases hL : get_comments_by_post c3db "cccccccccccccccccccccccc" 50 0 true with
  | nil => rw [hL] at h1; simp at h1
  | cons n rest =>
    have hn := hall n (by rw [hL]; exact List.mem_cons_self n rest)
    rw [hL, List.map_cons, hn] at h1
    simp at h1

/-- The common shape of `get_comments_by_post` on a well-formed store: a page
of stored comments of the post (already sorted descending, roots only unless
`include_replies`), each denormalized and decorated. -/
theorem get_comments_by_post_rep {db : DB}
    (hnd : nodupIds db.comments)
    (hids : ∀ x ∈ db.comments, isCanonicalOid x.id = true ∧
      isCanonicalOid x.author_id = true)
    (post_id : String) (limit offset : Nat) (inc : Bool) :
    ∃ paged : List StoredComment,
      (∀ c ∈ paged, c ∈ db.comments ∧ c.post_id = post_id ∧
        (inc = false → c.parent_id = none)) ∧
      List.Pairwise byCreatedDesc paged ∧
      get_comments_by_post db post_id limit offset inc =
        paged.map (fun c => (⟨denormComment db c,
          if inc && falsyStr c.parent_id then get_comment_replies db c.id
          else []⟩ : CommentNode)) := by
  have hmem0 : ∀ c ∈ (db.comments.filter (fun c =>
      c.post_id == post_id && (inc || c.parent_id == none))).insertionSort
        byCreatedDesc, c ∈ db.comments ∧
        (c.post_id == post_id && (inc || c.parent_id == none)) = true := by
    intro c hc
    have hm := (List.perm_insertionSort byCreatedDesc _).mem_iff.1 hc
    exact ⟨(List.mem_filter.1 hm).1, (List.mem_filter.1 hm).2⟩
  have hsorted : List.Pairwise byCreatedDesc ((db.comments.filter (fun c =>
      c.post_id == post_id && (inc || c.parent_id == none))).insertionSort
        byCreatedDesc) := List.sorted_insertionSort byCreatedDesc _
  have hpt : ∀ c ∈ (db.comments.filter (fun c =>
      c.post_id == post_id && (inc || c.parent_id == none))).insertionSort
        byCreatedDesc,
      (get_comment_by_id db c.id).map (fun out => (⟨out,
        if inc && falsyStr c.parent_id then get_comment_replies db c.id
        else []⟩ : CommentNode)) =
      some (⟨denormComment db c,
        if inc && falsyStr c.parent_id then get_comment_replies db c.id
        else []⟩ : CommentNode) := by
    intro c hc
    have hcm := (hmem0 c hc).1
    rw [get_comment_by_id_denorm hnd hcm (hids c hcm).1 (hids c hcm).2]
    rfl
  refine ⟨if limit = 0
      then ((db.comments.filter (fun c => c.post_id == post_id &&
        (inc || c.parent_id == none))).insertionSort byCreatedDesc).drop offset
      else (((db.comments.filter (fun c => c.post_id == post_id &&
        (inc || c.parent_id == none))).insertionSort byCreatedDesc).drop
          offset).take limit, ?_, ?_, ?_⟩
  · intro c hc
    have hsub : c ∈ (db.comments.filter (fun c => c.post_id == post_id &&
        (inc || c.parent_id == none))).insertionSort byCreatedDesc := by
      by_cases h : limit = 0
      · rw [if_pos h] at hc
        exact (List.drop_sublist _ _).subset hc
      · rw [if_neg h] at hc
        exact (List.drop_sublist _ _).subset ((List.take_sublist _ _).subset hc)
    obtain ⟨h1, h2⟩ := hmem0 c hsub
    simp only [Bool.and_eq_true, beq_iff_eq, Bool.or_eq_true] at h2
    refine ⟨h1, h2.1, ?_⟩
    intro hincf
    subst hincf
    rcases h2.2 with h | h
    · simp at h
    · simpa using h
  · by_cases h : limit = 0
    · rw [if_pos h]
      exact List.Pairwise.sublist (List.drop_sublist _ _) hsorted
    · rw [if_neg h]
      exact List.Pairwise.sublist
        ((List.take_sublist _ _).trans (List.drop_sublist _ _)) hsorted
  · simp only [get_comments_by_post]
    by_cases h : limit = 0
    · rw [if_pos h]
      exact filterMap_eq_map_of_some
        (fun c hc => hpt c ((List.drop_sublist _ _).subset hc))
    · rw [if_neg h]
      exact filterMap_eq_map_of_some
        (fun c hc => hpt c
          ((List.drop_sublist _ _).subset ((List.take_sublist _ _).subset hc)))

/-- Claim C4, amended.  On a well-formed store: with `include_replies =
false` the page holds only root comments (parent reference `None`) of the
post, in `created_at` descending order, and no reply subtrees are attached;
with `include_replies = true` the page is *all* comments of the post — roots
and replies alike — still sorted descending, with the recursively resolved
reply subtree attached exactly to the items whose parent reference is
`None`. -/
theorem c4_comments_listing_amended {db : DB}
    (hnd : nodupIds db.comments)
    (hids : ∀ x ∈ db.comments, isCanonicalOid x.id = true ∧
      isCanonicalOid x.author_id = true)
    (post_id : String) (limit offset : Nat) :
    (∀ n ∈ get_comments_by_post db post_id limit offset false,
      n.out.parent_id = none ∧ n.replies = []) ∧
    (∀ inc, (get_comments_by_post db post_id limit offset inc).Pairwise
      (fun a b => b.out.created_at ≤ a.out.created_at)) ∧
    (∀ n ∈ get_comments_by_post db post_id limit offset true,
      n.out.parent_id = none →
        n.replies = get_comment_replies db n.out.id) := by
  refine ⟨?_, ?_, ?_⟩
  · obtain ⟨paged, hmem, _, heq⟩ :=
      get_comments_by_post_rep hnd hids post_id limit offset false
    intro n hn
    rw [heq] at hn
    obtain ⟨c, hcp, rfl⟩ := List.mem_map.1 hn
    have hpar : c.parent_id = none := (hmem c hcp).2.2 rfl
    constructor
    · exact hpar
    · simp [CommentNode.replies]
  · intro inc
    obtain ⟨paged, _, hsor, heq⟩ :=
      get_comments_by_post_rep hnd hids post_id limit offset inc
    rw [heq, List.pairwise_map]
    refine hsor.imp ?_
    intro a b hab
    exact hab
  · obtain ⟨paged, hmem, _, heq⟩ :=
      get_comments_by_post_rep hnd hids post_id limit offset true
    intro n hn
    rw [heq] at hn
    obtain ⟨c, hcp, rfl⟩ := List.mem_map.1 hn
    intro hpar
    have hparc : c.parent_id = none := hpar
    simp [CommentNode.replies, CommentNode.out, denormComment, hparc, falsyStr]

/-- Witness for `c4_comments_listing_amended` on the two-comment thread. -/
theorem c4_comments_listing_amended_witness :
    (∀ n ∈ get_comments_by_post c3db "cccccccccccccccccccccccc" 50 0 false,
      n.out.parent_id = none ∧ n.replies = []) ∧
    (∀ inc, (get_comments_by_post c3db "cccccccccccccccccccccccc" 50 0
        inc).Pairwise
      (fun a b => b.out.created_at ≤ a.out.created_at)) ∧
    (∀ n ∈ get_comments_by_post c3db "cccccccccccccccccccccccc" 50 0 true,
      n.out.parent_id = none →
        n.replies = get_comment_replies c3db n.out.id) :=
  c4_comments_listing_amended (by decide) (by decide)
    "cccccccccccccccccccccccc" 50 0

/-- Claim C6, counterexample.  An administrator who is not the comment's
author passes the route's own author-or-admin check but the crud layer's
author-only check then raises 403: the update *fails* with Forbidden and the
store is unchanged, contradicting the claimed admin bypass. -/
theorem c6_counterexample :
    update_comment_route c3db adminActor c1Root.id "hacked" 9 =
      (.error .forbidden, c3db) := rfl

/-- Claim C6, amended.  On a well-formed store whose author user exists, the
comment update succeeds exactly when the actor *is* the comment's author:
the route rejects anyone who is neither author nor admin with 403, and the
crud layer then rejects even admins who are not the author with its own 403
(no admin bypass, no editor rights); a successful update rewrites exactly
the comment's content and `updated_at` and returns the refetched comment. -/
theorem c6_update_comment_amended {db : DB}
    (hnd : nodupIds db.comments)
    (hids : ∀ x ∈ db.comments, isCanonicalOid x.id = true ∧
      isCanonicalOid x.author_id = true)
    {c : StoredComment} (hc : c ∈ db.comments)
    (actor : CurrentUser) (content : String) (now : Nat)
    (husr : ∃ u ∈ db.users, u.id = c.author_id) :
    (actor.id = c.author_id →
      update_comment_route db actor c.id content now =
        (.ok (denormComment
            { db with comments := (setFirst (fun x => x.id == c.id)
                (fun x => { x with content := content, updated_at := now })
                db.comments) }
            { c with content := content, updated_at := now }),
          { db with comments := (setFirst (fun x => x.id == c.id)
              (fun x => { x with content := content, updated_at := now })
              db.comments) })) ∧
    (actor.id ≠ c.author_id →
      update_comment_route db actor c.id content now =
        (.error .forbidden, db) ∧
      ∀ (out : CommentOut) (db' : DB),
        update_comment_route db actor c.id content now ≠ (.ok out, db')) := by
  have hcanon := objectIdNorm_canonical (hids c hc).1
  have hfind := find?_id_of_mem hnd hc
  have hgc : get_comment_by_id db c.id = some (denormComment db c) :=
    get_comment_by_id_denorm hnd hc (hids c hc).1 (hids c hc).2
  obtain ⟨u, hum, huid⟩ := husr
  have hfindu : ∃ u', db.users.find? (fun x => x.id == c.author_id) = some u' ∧
      u'.id = c.author_id := by
    cases hf : db.users.find? (fun x => x.id == c.author_id) with
    | none =>
      exfalso
      have h2 := List.find?_eq_none.1 hf u hum
      simp [huid] at h2
    | some u' =>
      exact ⟨u', rfl, by simpa using List.find?_some hf⟩
  obtain ⟨u', hfu, hui⟩ := hfindu
  have hauthorid : (denormComment db c).author.map (fun a => a.id) =
      some c.author_id := by
    simp [denormComment, hfu, hui]
  constructor
  · intro ha
    have hcond : ((denormComment db c).author.map (fun a => a.id) !=
        some actor.id && actor.role != "admin") = false := by
      rw [hauthorid, ha]
      simp
    have habne : (c.author_id != actor.id) = false := by
      rw [ha]
      simp
    have hsf : ∃ l₁ l₂, db.comments = l₁ ++ c :: l₂ ∧
        setFirst (fun x => x.id == c.id)
          (fun x => { x with content := content, updated_at := now })
          db.comments =
            l₁ ++ ({ c with content := content, updated_at := now } :
              StoredComment) :: l₂ := by
      obtain ⟨l₁, l₂, hdec, hfalse⟩ := find?_decomp hfind
      refine ⟨l₁, l₂, hdec, ?_⟩
      rw [hdec]
      exact setFirst_append hfalse (by simp)
    obtain ⟨l₁, l₂, hdec, hsfeq⟩ := hsf
    have hmapeq : (setFirst (fun x => x.id == c.id)
        (fun x => { x with content := content, updated_at := now })
        db.comments).map (fun x => x.id) = db.comments.map (fun x => x.id) := by
      rw [hsfeq, hdec]
      simp
    have hnd' : nodupIds (setFirst (fun x => x.id == c.id)
        (fun x => { x with content := content, updated_at := now })
        db.comments) := by
      unfold nodupIds
      rw [hmapeq]
      exact hnd
    have hcmem' : ({ c with content := content, updated_at := now } :
        StoredComment) ∈ setFirst (fun x => x.id == c.id)
          (fun x => { x with content := content, updated_at := now })
          db.comments := by
      rw [hsfeq]
      exact List.mem_append.2 (Or.inr (List.mem_cons_self _ _))
    have hrefetch : get_comment_by_id
        { db with comments := (setFirst (fun x => x.id == c.id)
            (fun x => { x with content := content, updated_at := now })
            db.comments) } c.id =
        some (denormComment
          { db with comments := (setFirst (fun x => x.id == c.id)
              (fun x => { x with content := content, updated_at := now })
              db.comments) }
          { c with content := content, updated_at := now }) :=
      @get_comment_by_id_denorm
        { db with comments := (setFirst (fun x => x.id == c.id)
            (fun x => { x with content := content, updated_at := now })
            db.comments) }
        hnd' ({ c with content := content, updated_at := now }) hcmem'
        (hids c hc).1 (hids c hc).2
    simp only [update_comment_route, hgc, hcond, Bool.false_eq_true, if_false,
      update_comment, hcanon, hfind, habne, hrefetch]
  · intro hne
    have hcond : ((denormComment db c).author.map (fun a => a.id) !=
        some actor.id && actor.role != "admin") =
        (actor.role != "admin") := by
      rw [hauthorid]
      have h2 : (some c.author_id != some actor.id) = true := by
        simp
        exact fun h => hne h.symm
      rw [h2, Bool.true_and]
    have habne : (c.author_id != actor.id) = true := by
      simp
      exact fun h => hne h.symm
    have hrop : update_comment_route db actor c.id content now =
        (.error .forbidden, db) := by
      by_cases hrole : actor.role = "admin"
      · have hcond2 : ((denormComment db c).author.map (fun a => a.id) !=
            some actor.id && actor.role != "admin") = false := by
          rw [hcond, hrole]
          simp
        simp only [update_comment_route, hgc, hcond2, Bool.false_eq_true,
          if_false, update_comment, hcanon, hfind, habne, if_true]
      · have hcond2 : ((denormComment db c).author.map (fun a => a.id) !=
            some actor.id && actor.role != "admin") = true := by
          rw [hcond]
          simp
          exact hrole
        simp only [update_comment_route, hgc, hcond2, if_true]
    refine ⟨hrop, ?_⟩
    intro out db' hcontra
    rw [hrop] at hcontra
    simp at hcontra

/-- Witness for `c6_update_comment_amended`: the author edits their own
comment; the fixture also instantiates the impossible non-author branch. -/
theorem c6_update_comment_amended_witness :
    (aliceActor.id = c1Root.author_id →
      update_comment_route c3db aliceActor c1Root.id "edited" 7 =
        (.ok (denormComment
            { c3db with comments := (setFirst (fun x => x.id == c1Root.id)
                (fun x => { x with content := "edited", updated_at := 7 })
                c3db.comments) }
            { c1Root with content := "edited", updated_at := 7 }),
          { c3db with comments := (setFirst (fun x => x.id == c1Root.id)
              (fun x => { x with content := "edited", updated_at := 7 })
              c3db.comments) })) ∧
    (aliceActor.id ≠ c1Root.author_id →
      update_comment_route c3db aliceActor c1Root.id "edited" 7 =
        (.error .forbidden, c3db) ∧
      ∀ (out : CommentOut) (db' : DB),
        update_comment_route c3db aliceActor c1Root.id "edited" 7 ≠
          (.ok out, db')) :=
  @c6_update_comment_amended c3db (by decide) (by decide) c1Root (by decide)
    aliceActor "edited" 7 (by decide)

/-- Everything a successful `pagination_params` guarantees: the bounds and
the single shared default of 10 / 0. -/
theorem pagination_params_ok {limitQ offsetQ : Option Int} {l o : Int}
    (h : pagination_params limitQ offsetQ = .ok (l, o)) :
    1 ≤ l ∧ l ≤ 100 ∧ 0 ≤ o ∧ (limitQ = none → l = 10) ∧
      (offsetQ = none → o = 0) := by
  simp only [pagination_params] at h
  split at h
  · cases h
  · split at h
    · cases h
    · rename_i h1 h2
      simp only [Except.ok.injEq, Prod.mk.injEq] at h
      obtain ⟨hl, ho⟩ := h
      subst hl
      subst ho
      simp only [Bool.or_eq_true, decide_eq_true_eq, not_or] at h1
      simp only [decide_eq_true_eq, not_lt] at h2
      refine ⟨by omega, by omega, by omega, ?_, ?_⟩
      · intro hn
        subst hn
        rfl
      · intro hn
        subst hn
        rfl

/-- Claim C9, counterexample.  With no limit supplied, the current user's
comment listing and a post's comment listing both run with an effective
limit of 10 — not the claimed 20 and 50: those crud-level defaults are dead
because every route passes the shared dependency's value explicitly. -/
theorem c9_counterexample :
    (∃ page, read_users_me_comments c9db bobActor none none = .ok page ∧
      page.limit = 10 ∧ ¬ page.limit = 20) ∧
    (∃ page, get_post_comments_route c9db c9Post.id none none false =
        .ok page ∧ page.limit = 10 ∧ ¬ page.limit = 50) := by
  constructor
  · exact ⟨_, rfl, rfl, by decide⟩
  · exact ⟨_, rfl, rfl, by decide⟩

/-- Claim C9, amended.  Every listing request's effective limit lies in
[1,100] and its offset in [0,∞) (out-of-range values are rejected with a 422,
not clamped), and when no limit is supplied the effective default is 10 for
*every* route — posts, a post's comments, and the user's comments alike —
because all three use the shared `pagination_params` dependency; the
distinct crud-level defaults (50 for `get_comments_by_post`, 20 for
`get_user_comments`) exist in the signatures but are never exercised by any
route. -/
theorem c9_pagination_amended :
    (∀ (limitQ offsetQ : Option Int) (l o : Int),
      pagination_params limitQ offsetQ = .ok (l, o) →
      1 ≤ l ∧ l ≤ 100 ∧ 0 ≤ o ∧ (limitQ = none → l = 10) ∧
        (offsetQ = none → o = 0)) ∧
    (∀ (db : DB) (u : CurrentUser) (limitQ offsetQ : Option Int)
        (page : UserCommentsPage),
      read_users_me_comments db u limitQ offsetQ = .ok page →
      1 ≤ page.limit ∧ page.limit ≤ 100 ∧ 0 ≤ page.offset ∧
        (limitQ = none → page.limit = 10)) ∧
    (∀ (db : DB) (pid : String) (limitQ offsetQ : Option Int) (inc : Bool)
        (page : PostCommentsPage),
      get_post_comments_route db pid limitQ offsetQ inc = .ok page →
      1 ≤ page.limit ∧ page.limit ≤ 100 ∧ 0 ≤ page.offset ∧
        (limitQ = none → page.limit = 10)) ∧
    (∀ (db : DB) (limitQ offsetQ : Option Int) (f : Option PostFilters)
        (page : PostsPage),
      get_posts_route db limitQ offsetQ f = .ok page →
      1 ≤ page.limit ∧ page.limit ≤ 100 ∧ 0 ≤ page.offset ∧
        (limitQ = none → page.limit = 10)) ∧
    (∀ (db : DB) (uid : String),
      get_user_comments db uid = get_user_comments db uid 20 0) ∧
    (∀ (db : DB) (pid : String),
      get_comments_by_post db pid = get_comments_by_post db pid 50 0 false) := by
  refine ⟨?_, ?_, ?_, ?_, fun _ _ => rfl, fun _ _ => rfl⟩
  · intro limitQ offsetQ l o h
    exact pagination_params_ok h
  · intro db u limitQ offsetQ page h
    unfold read_users_me_comments at h
    cases hp : pagination_params limitQ offsetQ with
    | error e =>
      simp only [hp] at h
      exact (Except.noConfusion h)
    | ok lo =>
      obtain ⟨l, o⟩ := lo
      simp only [hp] at h
      obtain ⟨h1, h2, h3, h4, _⟩ := pagination_params_ok hp
      cases hg : get_user_comments db u.id l.toNat o.toNat with
      | error e =>
        simp only [hg] at h
        exact (Except.noConfusion h)
      | ok items =>
        simp only [hg, Except.ok.injEq] at h
        subst h
        exact ⟨h1, h2, h3, h4⟩
  · intro db pid limitQ offsetQ inc page h
    unfold get_post_comments_route at h
    cases hp : pagination_params limitQ offsetQ with
    | error e =>
      simp only [hp] at h
      exact (Except.noConfusion h)
    | ok lo =>
      obtain ⟨l, o⟩ := lo
      simp only [hp] at h
      obtain ⟨h1, h2, h3, h4, _⟩ := pagination_params_ok hp
      cases hq : get_post_by_id db pid with
      | none =>
        simp only [hq] at h
        exact (Except.noConfusion h)
      | some p =>
        simp only [hq, Except.ok.injEq] at h
        subst h
        exact ⟨h1, h2, h3, h4⟩
  · intro db limitQ offsetQ f page h
    unfold get_posts_route at h
    cases hp : pagination_params limitQ offsetQ with
    | error e =>
      simp only [hp] at h
      exact (Except.noConfusion h)
    | ok lo =>
      obtain ⟨l, o⟩ := lo
      simp only [hp, Except.ok.injEq] at h
      obtain ⟨h1, h2, h3, h4, _⟩ := pagination_params_ok hp
      subst h
      exact ⟨h1, h2, h3, h4⟩

/-- Witness for `c9_pagination_amended`: the shared dependency with no
parameters yields the default page shape 10 / 0. -/
theorem c9_pagination_amended_witness :
    1 ≤ (10 : Int) ∧ (10 : Int) ≤ 100 ∧ 0 ≤ (0 : Int) ∧
      ((none : Option Int) = none → (10 : Int) = 10) ∧
      ((none : Option Int) = none → (0 : Int) = 0) :=
  c9_pagination_amended.1 none none 10 0 rfl

end BlogAPI
